import Mathlib

/-!
Shallow embedding of the CodeVisualizer dependency-graph engine
(`src/core/dependency`): the file-type classifier (`FileTypeClassifier`),
the codebase analyzer (`CodebaseAnalyzer`: dependency extraction and
resolution of raw module paths to files on disk), and the diagram
renderer (`CodebaseMermaidGenerator`).  JavaScript string primitives and
the Node `path`/`fs` modules are modelled by executable Lean functions
over `List Char`; the filesystem is an explicit parameter.  Paths follow
the posix convention (`path.sep = "/"`).
-/

namespace CodeViz

/-- Model of JavaScript `s.startsWith(p)`. -/
def jsStartsWith (s p : String) : Bool := List.isPrefixOf p.data s.data

/-- Boolean infix test on lists. -/
def listIsInfixOf [BEq α] : List α → List α → Bool
  | sub, [] => sub.isEmpty
  | sub, a :: as => sub.isPrefixOf (a :: as) || listIsInfixOf sub as

/-- Model of JavaScript `s.includes(sub)` (substring containment). -/
def jsIncludes (s sub : String) : Bool := listIsInfixOf sub.data s.data

/-- Model of JavaScript `s.toLowerCase()` (ASCII fragment). -/
def jsToLower (s : String) : String := ⟨s.data.map Char.toLower⟩

/-- Whether the first character of `s` is `c`. -/
def beginsWith (c : Char) (s : String) : Bool :=
  match s.data with
  | [] => false
  | a :: _ => a = c

/-- Truthiness of a JavaScript `string | null` value (`null` and the
empty string are falsy). -/
def jsTruthy : Option String → Bool
  | none => false
  | some s => s ≠ ""

/-- Split a character list at every occurrence of `sep`; chunks may be
empty (model of `s.split(sep)` for a one-character separator). -/
def splitOnChar (sep : Char) : List Char → List (List Char)
  | [] => [[]]
  | c :: rest =>
    match splitOnChar sep rest with
    | [] => if c = sep then [[], []] else [[c]]
    | l :: ls => if c = sep then [] :: l :: ls else (c :: l) :: ls

/-- Split a character list at every `'/'`. -/
def splitSlash : List Char → List (List Char) := splitOnChar '/'

/-- Model of JavaScript `s.split(path.sep)` with `path.sep = "/"`. -/
def splitSep (s : String) : List String := (splitSlash s.data).map (fun l => ⟨l⟩)

/-- Join path segments with the posix separator
(model of `array.join(path.sep)`). -/
def joinSep : List String → String
  | [] => ""
  | [a] => a
  | a :: b :: rest => a ++ "/" ++ joinSep (b :: rest)

/-- One step of posix path normalization: drop empty and `.` segments,
let `..` pop the previous segment. -/
def normStep (acc : List String) (seg : String) : List String :=
  if seg = "" then acc
  else if seg = "." then acc
  else if seg = ".." then acc.dropLast
  else acc ++ [seg]

/-- Normalized segment list of a path string. -/
def normSegs (s : String) : List String := (splitSep s).foldl normStep []

/-- Normalize an absolute posix path. -/
def normalizeAbs (s : String) : String := "/" ++ joinSep (normSegs s)

/-- Model of Node `path.resolve(base, p)` for an absolute `base`. -/
def pathResolve (base p : String) : String :=
  if beginsWith '/' p then normalizeAbs p else normalizeAbs (base ++ "/" ++ p)

/-- Model of Node `path.join(a, b)`. -/
def pathJoin (a b : String) : String :=
  (if beginsWith '/' a then "/" else "") ++ joinSep (normSegs (a ++ "/" ++ b))

/-- Model of Node `path.dirname`. -/
def pathDirname (s : String) : String :=
  let segs := (splitSep s).filter (· ≠ "")
  if beginsWith '/' s then
    match segs.dropLast with
    | [] => "/"
    | l => "/" ++ joinSep l
  else
    match segs.dropLast with
    | [] => "."
    | l => joinSep l

/-- Model of Node `path.basename`. -/
def pathBasename (s : String) : String :=
  match ((splitSep s).filter (· ≠ "")).getLast? with
  | some l => l
  | none => ""

/-- Model of Node `path.extname`: the suffix of the basename from its
last dot, where a dot at position 0 does not count. -/
def pathExtname (s : String) : String :=
  let rev := (pathBasename s).data.reverse
  match List.findIdx? (· = '.') rev with
  | none => ""
  | some i => if i = rev.length - 1 then "" else ⟨(rev.take (i + 1)).reverse⟩

/-- Length of the longest common prefix of two segment lists. -/
def commonPrefixLen : List String → List String → Nat
  | a :: as, b :: bs => if a = b then 1 + commonPrefixLen as bs else 0
  | _, _ => 0

/-- Model of Node `path.relative(f, t)` for absolute inputs. -/
def pathRelative (f t : String) : String :=
  let fs := normSegs f
  let ts := normSegs t
  let c := commonPrefixLen fs ts
  joinSep ((fs.drop c).map (fun _ => "..") ++ ts.drop c)

/-- Model of Node `path.isAbsolute`. -/
def pathIsAbsolute (s : String) : Bool := beginsWith '/' s

/-- `FileCategory` (`FileTypeClassifier.ts`): semantic category of a
file, used for node coloring. -/
inductive FileCategory where
  | core
  | report
  | config
  | tool
  | entry
deriving DecidableEq, Inhabited

/-- `EdgeType` (`FileTypeClassifier.ts`): semantic category of a
dependency edge. -/
inductive EdgeType where
  | normal
  | processing
  | special
  | internal
  | utility
  | indirect
deriving DecidableEq, Inhabited

namespace FileTypeClassifier

/-- `FileTypeClassifier.classifyFile`: ordered first-match rule list
(entry, report, tool, config, core) with default `entry`. -/
def classifyFile (relativePath fileName : String) : FileCategory :=
  let lowerPath := jsToLower relativePath
  let lowerFileName := jsToLower fileName
  -- Entry points and common utilities
  if lowerFileName == "index.ts" ||
     lowerFileName == "index.js" ||
     lowerFileName == "index.tsx" ||
     lowerFileName == "index.jsx" ||
     lowerFileName == "index.mjs" ||
     lowerFileName == "__init__.py" ||
     jsIncludes lowerFileName "files-and-dirs" ||
     jsIncludes lowerFileName "options" ||
     jsIncludes lowerPath "/main/" ||
     jsIncludes lowerPath "/entry/" then
    .entry
  -- Report and transform
  else if jsIncludes lowerPath "/report/" ||
     jsIncludes lowerPath "/reports/" ||
     jsIncludes lowerPath "/transform/" ||
     jsIncludes lowerPath "/transforms/" ||
     jsIncludes lowerPath "/graph-" ||
     jsIncludes lowerFileName "report" ||
     jsIncludes lowerFileName "transform" ||
     jsIncludes lowerFileName "consolidate" ||
     jsIncludes lowerFileName "match-facade" ||
     jsIncludes lowerFileName "gosubsum" then
    .report
  -- Tools and cache
  else if jsIncludes lowerPath "/bin/" ||
     jsIncludes lowerPath "/cache/" ||
     jsIncludes lowerPath "/tools/" ||
     jsIncludes lowerPath "/tool/" ||
     jsIncludes lowerFileName "hotspots" ||
     jsIncludes lowerFileName "wrap-stream" ||
     jsIncludes lowerFileName "options-compatible" then
    .tool
  -- Config, validate, CLI, utilities
  else if jsIncludes lowerPath "/validate/" ||
     jsIncludes lowerPath "/validators/" ||
     jsIncludes lowerPath "/config/" ||
     jsIncludes lowerPath "/configs/" ||
     jsIncludes lowerPath "/config-" ||
     jsIncludes lowerPath "/cli/" ||
     jsIncludes lowerPath "/indexers/" ||
     jsIncludes lowerPath "/performance/" ||
     jsIncludes lowerPath "/utils/" ||
     jsIncludes lowerPath "/util/" ||
     jsIncludes lowerPath "/helpers/" ||
     jsIncludes lowerFileName "validator" ||
     jsIncludes lowerFileName "config" ||
     jsIncludes lowerFileName "format-helpers" ||
     jsIncludes lowerFileName "merge-configs" ||
     jsIncludes lowerFileName "match-dependency-rule" then
    .config
  -- Core logic, extract, schema, enrich
  else if jsIncludes lowerPath "/enrich/" ||
     jsIncludes lowerPath "/extract/" ||
     jsIncludes lowerPath "/schema/" ||
     jsIncludes lowerPath "/schemas/" ||
     jsIncludes lowerPath "/summarize/" ||
     jsIncludes lowerPath "/acorn/" ||
     jsIncludes lowerPath "/tsc/" ||
     jsIncludes lowerPath "/resolve/" ||
     jsIncludes lowerPath "/transpile/" ||
     jsIncludes lowerFileName "extract" ||
     jsIncludes lowerFileName "schema" ||
     jsIncludes lowerFileName "enrich" ||
     jsIncludes lowerFileName "summarize" ||
     jsIncludes lowerFileName "reachable" ||
     jsIncludes lowerFileName "derive" ||
     jsIncludes lowerFileName "main-result-schema" then
    .core
  else
    .entry

/-- `FileTypeClassifier.getNodeStrokeColor`. -/
def getNodeStrokeColor : FileCategory → String
  | .core => "#00AA00"
  | .report => "#CC00CC"
  | .config => "#0066FF"
  | .tool => "#FF6600"
  | .entry => "#666666"

/-- `FileTypeClassifier.classifyEdge`: ordered first-match rules. -/
def classifyEdge (sourceCategory targetCategory : FileCategory)
    (sourcePath targetPath : String) : EdgeType :=
  let lowerSourcePath := jsToLower sourcePath
  let lowerTargetPath := jsToLower targetPath
  if sourceCategory == .config ||
     targetCategory == .config ||
     jsIncludes lowerSourcePath "/config/" ||
     jsIncludes lowerTargetPath "/config/" ||
     jsIncludes lowerSourcePath "/cli/" ||
     jsIncludes lowerTargetPath "/cli/" then
    .indirect
  else if sourceCategory == .report && targetCategory == .report then
    .internal
  else if (sourceCategory == .core && targetCategory == .core) ||
     jsIncludes lowerSourcePath "/extract/" ||
     jsIncludes lowerTargetPath "/extract/" ||
     jsIncludes lowerSourcePath "/enrich/" ||
     jsIncludes lowerTargetPath "/enrich/" then
    .processing
  else if sourceCategory == .tool ||
     targetCategory == .tool ||
     jsIncludes lowerSourcePath "/utils/" ||
     jsIncludes lowerTargetPath "/utils/" then
    .utility
  else if jsIncludes lowerSourcePath "/options/" ||
     jsIncludes lowerTargetPath "/resolve/" then
    .special
  else
    .normal

/-- `FileTypeClassifier.getEdgeColor`. -/
def getEdgeColor : EdgeType → String
  | .normal => "#0066CC"
  | .processing => "#00AA00"
  | .special => "#CC0000"
  | .internal => "#8B00FF"
  | .utility => "#FF6600"
  | .indirect => "#0099CC"

/-- `FileTypeClassifier.getEdgeStyle`: `indirect` is dashed, all other
edge kinds are solid. -/
def getEdgeStyle (edgeType : EdgeType) : String :=
  if edgeType == .indirect then "dashed" else "solid"

end FileTypeClassifier

/-- A JavaScript `Map` with string keys, modelled as an association
list in insertion order (JS map iteration is insertion-ordered). -/
def mapGet (l : List (String × α)) (k : String) : Option α :=
  (l.find? (fun p => p.1 == k)).map (·.2)

/-- `map.has(k)`. -/
def mapHas (l : List (String × α)) (k : String) : Bool := (mapGet l k).isSome

/-- `map.set(k, v)`: overwrite in place if the key is present, append
otherwise. -/
def mapSet : List (String × α) → String → α → List (String × α)
  | [], k, v => [(k, v)]
  | (k0, v0) :: rest, k, v =>
    if k0 == k then (k0, v) :: rest else (k0, v0) :: mapSet rest k v

/-- `CodebaseDependency` (`CodebaseAnalyzer.ts`): one discovered
import/require occurrence. -/
structure CodebaseDependency where
  module : String
  resolved : Option String
  dependencyTypes : List String
  valid : Bool
deriving DecidableEq, Inhabited

/-- `CodebaseModule` (`CodebaseAnalyzer.ts`): one analyzed source file. -/
structure CodebaseModule where
  source : String
  relativePath : String
  fileName : String
  languageId : String
  fileCategory : FileCategory
  dependencies : List CodebaseDependency
  dependents : List String
  functions : List String
  exports : List String
deriving DecidableEq, Inhabited

/-- A directory tree entry as seen by `fs.promises.readdir` with
`withFileTypes`.  `badDir` is a directory whose own `readdir` call
throws (permission denied, race with deletion). -/
inductive FsEntry where
  | file (name : String)
  | dir (name : String) (entries : List FsEntry)
  | badDir (name : String)
deriving Inhabited

/-- Result kind of `fs.promises.stat`. -/
inductive StatKind where
  | file
  | dir
  | other
deriving DecidableEq, Inhabited

/-- The filesystem as seen by the analyzer: synchronous existence and
stat probes used during resolution, file contents for `readFile`
(`none` models a read error), `stat` for explicitly selected paths
(`.error` models a thrown exception), and the workspace root tree for
the recursive walk. -/
structure Fs where
  existsSync : String → Bool
  statIsFile : String → Bool
  contents : String → Option String
  statKind : String → Except Unit StatKind
  tree : FsEntry

/-- The `supportedExtensions` set of `CodebaseAnalyzer`. -/
def supportedExtensionList : List String :=
  [".js", ".jsx", ".ts", ".tsx", ".mjs", ".cjs",
   ".py", ".java", ".cpp", ".c", ".h", ".hpp",
   ".rs", ".go"]

/-- Character-class tests mirroring the JavaScript regex classes
`\s` and `\w`. -/
def isWsChar (c : Char) : Bool := c.isWhitespace

/-- `\w` character class. -/
def isWordChar (c : Char) : Bool := c.isAlphanum || c = '_'

/-- Quote class `['"]`. -/
def isQuoteChar (c : Char) : Bool := c = '"' || c = '\''

/-- Match a literal character sequence, returning the remainder. -/
def expectLit : List Char → List Char → Option (List Char)
  | [], cs => some cs
  | l :: ls, c :: cs => if c = l then expectLit ls cs else none
  | _ :: _, [] => none

/-- Consume `\s*`. -/
def dropWs (cs : List Char) : List Char := cs.dropWhile isWsChar

/-- Consume `\s+` (at least one whitespace character). -/
def expectWs1 : List Char → Option (List Char)
  | c :: cs => if isWsChar c then some (dropWs cs) else none
  | [] => none

/-- Capture `(\w+)`. -/
def captureWord (cs : List Char) : Option (String × List Char) :=
  match cs.takeWhile isWordChar, cs.dropWhile isWordChar with
  | [], _ => none
  | w, rest => some (⟨w⟩, rest)

/-- Match `['"]([^'"]+)['"]`: a quoted capture of at least one
non-quote character (the closing quote may be either kind, as in the
source regex character classes). -/
def matchQuoted : List Char → Option (String × List Char)
  | c :: cs =>
    if isQuoteChar c then
      match cs.takeWhile (fun d => !isQuoteChar d), cs.dropWhile (fun d => !isQuoteChar d) with
      | [], _ => none
      | cap, d :: rest => if isQuoteChar d then some (⟨cap⟩, rest) else none
      | _, [] => none
    else none
  | [] => none

/-- Try to match the ES6 import regex
`import\s+(?:(?:\*\s+as\s+\w+)|(?:\x7b[^\x7d]*\x7d)|(?:\w+))\s+from\s+['"]([^'"]+)['"]`
at the start of `cs`; on success return the captured module path and
the remainder after the match.  The three import-specifier alternatives
are distinguished by their first character, exactly as the regex
backtracking would. -/
def matchImportAt (cs : List Char) : Option (String × List Char) := do
  let r0 ← expectLit "import".data cs
  let r1 ← expectWs1 r0
  let r2 ← (match r1 with
    | '*' :: r => do
        let r ← expectWs1 r
        let r ← expectLit "as".data r
        let r ← expectWs1 r
        let (_, r) ← captureWord r
        pure r
    | '{' :: r =>
        (match r.dropWhile (fun c => c ≠ '}') with
         | '}' :: r2 => some r2
         | _ => none)
    | r => do
        let (_, r) ← captureWord r
        pure r)
  let r3 ← expectWs1 r2
  let r4 ← expectLit "from".data r3
  let r5 ← expectWs1 r4
  matchQuoted r5

/-- Try to match the CommonJS require regex
`require\s*\(\s*['"]([^'"]+)['"]\s*\)` at the start of `cs`. -/
def matchRequireAt (cs : List Char) : Option (String × List Char) := do
  let r0 ← expectLit "require".data cs
  let r1 := dropWs r0
  let r2 ← (match r1 with | '(' :: r => some r | _ => none)
  let (cap, r3) ← matchQuoted (dropWs r2)
  match dropWs r3 with
  | ')' :: r4 => some (cap, r4)
  | _ => none

/-- Global-regex scan: at each position try the matcher; on a match,
emit the capture and continue after the match, otherwise advance one
character (every successful match consumes at least one character, so
`fuel = length + 1` suffices). -/
def scanWith (m : List Char → Option (String × List Char)) :
    Nat → List Char → List String
  | 0, _ => []
  | _ + 1, [] => []
  | fuel + 1, c :: rest =>
    match m (c :: rest) with
    | some (cap, after) => cap :: scanWith m fuel after
    | none => scanWith m fuel rest

/-- Run a global-regex scan over a whole string. -/
def runScan (m : List Char → Option (String × List Char)) (content : String) :
    List String :=
  scanWith m (content.data.length + 1) content.data

/-- Captures of the ES6 import scan over the file content. -/
def jsImports (content : String) : List String := runScan matchImportAt content

/-- Captures of the `require()` scan over the file content. -/
def jsRequires (content : String) : List String := runScan matchRequireAt content

/-- The Python import regex `(?:^|\n)\s*(?:import|from)\s+(\S+)` scans
statement starts only; since `^` can match only at position 0 (no `m`
flag) and the separator is `\n`, the scan is equivalent to examining
each line: after leading whitespace, an `import` or `from` keyword
followed by at least one whitespace character and a nonempty
non-whitespace token. -/
def pyLineModule (line : String) : Option String :=
  let t := line.data.dropWhile isWsChar
  let afterKw :=
    match expectLit "import".data t with
    | some r => some r
    | none => expectLit "from".data t
  match afterKw with
  | none => none
  | some r =>
    match r with
    | c :: r2 =>
      if isWsChar c then
        match (r2.dropWhile isWsChar).takeWhile (fun d => !isWsChar d) with
        | [] => none
        | tok => some ⟨tok⟩
      else none
    | [] => none

/-- Captured module tokens of the Python import scan. -/
def pyImports (content : String) : List String :=
  (splitOnChar '\n' content.data).filterMap (fun l => pyLineModule ⟨l⟩)

/-- Model of `match[1].split(" ")[0].split(".")[0]`. -/
def firstSegment (s : String) : String :=
  match splitOnChar ' ' s.data with
  | [] => ""
  | a :: _ =>
    match splitOnChar '.' a with
    | [] => ""
    | b :: _ => ⟨b⟩

namespace CodebaseAnalyzer

/-- `fs.existsSync(p) && fs.statSync(p).isFile()`. -/
def fileProbe (fs : Fs) (p : String) : Bool := fs.existsSync p && fs.statIsFile p

/-- The fixed extension probe order of `resolveModulePath`. -/
def resolveExtensionList : List String :=
  ["", ".js", ".ts", ".jsx", ".tsx", ".mjs", ".cjs"]

/-- The fixed index-file probe order of `resolveModulePath`. -/
def indexFileList : List String :=
  ["index.js", "index.ts", "index.jsx", "index.tsx"]

/-- The extension-probing loop of `resolveModulePath`: first candidate
that exists as a regular file wins. -/
def probeExtensions (fs : Fs) (resolved : String) : List String → Option String
  | [] => none
  | ext :: rest =>
    let withExt := resolved ++ ext
    if fileProbe fs withExt then some withExt else probeExtensions fs resolved rest

/-- The directory/index fallback loop of `resolveModulePath`: first
index file that exists (plain existence check) wins. -/
def probeIndexFiles (fs : Fs) (resolved : String) : List String → Option String
  | [] => none
  | idx :: rest =>
    let indexPath := pathJoin resolved idx
    if fs.existsSync indexPath then some indexPath else probeIndexFiles fs resolved rest

/-- `CodebaseAnalyzer.resolveModulePath`: external short-circuit, base
resolution, extension probing, then directory/index fallback. -/
def resolveModulePath (fs : Fs) (workspaceRoot modulePath fromFile : String) :
    Option String :=
  if !(jsStartsWith modulePath ".") && !(jsStartsWith modulePath "/") then none
  else
    let fromDir := pathDirname fromFile
    let resolved :=
      if jsStartsWith modulePath "/" then pathJoin workspaceRoot modulePath
      else pathResolve fromDir modulePath
    match probeExtensions fs resolved resolveExtensionList with
    | some hit => some hit
    | none => probeIndexFiles fs resolved indexFileList

/-- The base path `resolved` computed by `resolveModulePath` before any
probing: workspace-rooted for `/`-prefixed paths, relative to the
importing file's directory otherwise. -/
def resolvedBase (workspaceRoot modulePath fromFile : String) : String :=
  if jsStartsWith modulePath "/" then pathJoin workspaceRoot modulePath
  else pathResolve (pathDirname fromFile) modulePath

/-- `modulePath.replace(/\./g, path.sep)`. -/
def dotsToSep (s : String) : String :=
  ⟨s.data.map (fun c => if c = '.' then '/' else c)⟩

/-- `CodebaseAnalyzer.resolvePythonModule`: skip names without a path
separator, resolve relative or workspace-rooted, probe `<path>.py` as a
file, else `<path>/__init__.py`. -/
def resolvePythonModule (fs : Fs) (workspaceRoot modulePath fromFile : String) :
    Option String :=
  if !(jsIncludes modulePath "/") && !(jsIncludes modulePath "\\") then none
  else
    let fromDir := pathDirname fromFile
    let resolved :=
      if jsStartsWith modulePath "." then pathResolve fromDir (dotsToSep modulePath)
      else pathResolve workspaceRoot (dotsToSep modulePath)
    let withExt := resolved ++ ".py"
    if fileProbe fs withExt then some withExt
    else
      let initPath := pathJoin resolved "__init__.py"
      if fs.existsSync initPath then some initPath else none

/-- The dependency record built for one JS/TS match
(`extractDependencies` loop body). -/
def mkJsDependency (fs : Fs) (workspaceRoot fromFile depType modulePath : String) :
    CodebaseDependency :=
  let resolved := resolveModulePath fs workspaceRoot modulePath fromFile
  { module := modulePath, resolved := resolved,
    dependencyTypes := [depType], valid := resolved.isSome }

/-- The dependency record built for one Python match
(`extractDependencies` loop body). -/
def mkPythonDependency (fs : Fs) (workspaceRoot fromFile modulePath : String) :
    CodebaseDependency :=
  let resolved := resolvePythonModule fs workspaceRoot modulePath fromFile
  { module := modulePath, resolved := resolved,
    dependencyTypes := ["import"], valid := resolved.isSome }

/-- `CodebaseAnalyzer.extractDependencies`: language-branched scans.
JS/TS runs the ES6-import scan then the require scan; Python runs the
statement scan and keeps the first dotted segment of each token. -/
def extractDependencies (fs : Fs) (workspaceRoot content filePath languageId : String) :
    List CodebaseDependency :=
  if languageId == "typescript" || languageId == "javascript" then
    (jsImports content).map (mkJsDependency fs workspaceRoot filePath "import")
    ++ (jsRequires content).map (mkJsDependency fs workspaceRoot filePath "require")
  else if languageId == "python" then
    (pyImports content).map
      (fun tok => mkPythonDependency fs workspaceRoot filePath (firstSegment tok))
  else []

/-- `function\s+(\w+)` suffix of the declaration regex. -/
def matchFunctionKw (cs : List Char) : Option (String × List Char) := do
  let r ← expectLit "function".data cs
  let r ← expectWs1 r
  captureWord r

/-- `(?:async\s+)?function\s+(\w+)`. -/
def matchAsyncFunction (cs : List Char) : Option (String × List Char) :=
  match (do let r ← expectLit "async".data cs; expectWs1 r) with
  | some r => matchFunctionKw r <|> matchFunctionKw cs
  | none => matchFunctionKw cs

/-- Declaration regex `(?:export\s+)?(?:async\s+)?function\s+(\w+)`. -/
def matchFuncDeclAt (cs : List Char) : Option (String × List Char) :=
  match (do let r ← expectLit "export".data cs; expectWs1 r) with
  | some r => matchAsyncFunction r <|> matchAsyncFunction cs
  | none => matchAsyncFunction cs

/-- `\(` after optional `async\s*`, yielding the earlier capture. -/
def expectOpenParen (w : String) : List Char → Option (String × List Char)
  | '(' :: r => some (w, r)
  | _ => none

/-- `(?:const|let|var)\s+(\w+)\s*[:=]\s*(?:async\s*)?\(` suffix of the
arrow-function regex. -/
def matchArrowKw (cs : List Char) : Option (String × List Char) := do
  let r ← expectLit "const".data cs <|> expectLit "let".data cs <|> expectLit "var".data cs
  let r ← expectWs1 r
  let (w, r) ← captureWord r
  let r := dropWs r
  let r ← (match r with
    | c :: r2 => if c = ':' || c = '=' then some r2 else none
    | [] => none)
  let r := dropWs r
  match (expectLit "async".data r).map dropWs with
  | some r2 => expectOpenParen w r2 <|> expectOpenParen w r
  | none => expectOpenParen w r

/-- Arrow-function regex
`(?:export\s+)?(?:const|let|var)\s+(\w+)\s*[:=]\s*(?:async\s*)?\(`. -/
def matchArrowAt (cs : List Char) : Option (String × List Char) :=
  match (do let r ← expectLit "export".data cs; expectWs1 r) with
  | some r => matchArrowKw r <|> matchArrowKw cs
  | none => matchArrowKw cs

/-- `(\w+)\s*\(` suffix of the method regex. -/
def matchMethodCore (cs : List Char) : Option (String × List Char) := do
  let (w, r) ← captureWord cs
  match dropWs r with
  | '(' :: r2 => some (w, r2)
  | _ => none

/-- Method regex `(?:public\s+|private\s+|protected\s+)?(\w+)\s*\(`. -/
def matchMethodAt (cs : List Char) : Option (String × List Char) :=
  let after : String → Option (List Char) := fun kw => do
    let r ← expectLit kw.data cs
    expectWs1 r
  match after "public" <|> after "private" <|> after "protected" with
  | some r => matchMethodCore r <|> matchMethodCore cs
  | none => matchMethodCore cs

/-- Python function regex `def\s+(\w+)\s*\(`. -/
def matchPyDefAt (cs : List Char) : Option (String × List Char) := do
  let r ← expectLit "def".data cs
  let r ← expectWs1 r
  let (w, r) ← captureWord r
  match dropWs r with
  | '(' :: r2 => some (w, r2)
  | _ => none

/-- `CodebaseAnalyzer.extractFunctions`: declaration scan, then arrow
scan, then method scan deduplicated against the accumulated list. -/
def extractFunctions (content languageId : String) : List String :=
  if languageId == "typescript" || languageId == "javascript" then
    let base := runScan matchFuncDeclAt content ++ runScan matchArrowAt content
    (runScan matchMethodAt content).foldl
      (fun acc w => if acc.contains w then acc else acc ++ [w]) base
  else if languageId == "python" then
    runScan matchPyDefAt content
  else []

/-- Export regex
`export\s+(?:function|const|let|class|async\s+function)\s+(\w+)`,
alternatives tried in the source order with backtracking. -/
def matchExportAt (cs : List Char) : Option (String × List Char) := do
  let r ← expectLit "export".data cs
  let r ← expectWs1 r
  let attempt := fun (kw : String) => do
    let r2 ← expectLit kw.data r
    let r3 ← expectWs1 r2
    captureWord r3
  let asyncAttempt := do
    let r2 ← expectLit "async".data r
    let r3 ← expectWs1 r2
    let r4 ← expectLit "function".data r3
    let r5 ← expectWs1 r4
    captureWord r5
  attempt "function" <|> attempt "const" <|> attempt "let" <|>
    attempt "class" <|> asyncAttempt

/-- First match of the non-global `__all__\s*=\s*\[([^\]]+)\]` regex. -/
def matchAllAt (cs : List Char) : Option String := do
  let r ← expectLit "__all__".data cs
  let r := dropWs r
  let r ← (match r with | '=' :: r2 => some r2 | _ => none)
  let r := dropWs r
  let r ← (match r with | '[' :: r2 => some r2 | _ => none)
  match r.takeWhile (fun c => c ≠ ']'), r.dropWhile (fun c => c ≠ ']') with
  | [], _ => none
  | cap, ']' :: _ => some ⟨cap⟩
  | _, _ => none

/-- Leftmost match of a non-global regex. -/
def findFirstMatch (m : List Char → Option String) : List Char → Option String
  | [] => none
  | c :: rest =>
    match m (c :: rest) with
    | some w => some w
    | none => findFirstMatch m rest

/-- `s.trim()`. -/
def trimWs (cs : List Char) : List Char :=
  ((cs.dropWhile isWsChar).reverse.dropWhile isWsChar).reverse

/-- `CodebaseAnalyzer.extractExports`. -/
def extractExports (content languageId : String) : List String :=
  if languageId == "typescript" || languageId == "javascript" then
    runScan matchExportAt content
  else if languageId == "python" then
    match findFirstMatch matchAllAt content.data with
    | some cap =>
      (splitOnChar ',' cap.data).map
        (fun item => ⟨(trimWs item).filter (fun c => !isQuoteChar c)⟩)
    | none => []
  else []

/-- `CodebaseAnalyzer.getLanguageId` extension table. -/
def getLanguageId (ext : String) : String :=
  if ext == ".js" then "javascript"
  else if ext == ".jsx" then "javascript"
  else if ext == ".mjs" then "javascript"
  else if ext == ".cjs" then "javascript"
  else if ext == ".ts" then "typescript"
  else if ext == ".tsx" then "typescript"
  else if ext == ".py" then "python"
  else if ext == ".java" then "java"
  else if ext == ".cpp" then "cpp"
  else if ext == ".cxx" then "cpp"
  else if ext == ".cc" then "cpp"
  else if ext == ".c" then "c"
  else if ext == ".h" then "c"
  else if ext == ".hpp" then "cpp"
  else if ext == ".rs" then "rust"
  else if ext == ".go" then "go"
  else "unknown"

/-- `CodebaseAnalyzer.analyzeFile`: `none` when the file read throws
(the error is caught and logged); otherwise the fully extracted module
record. -/
def analyzeFile (fs : Fs) (workspaceRoot filePath : String) : Option CodebaseModule :=
  match fs.contents filePath with
  | none => none
  | some content =>
    let relativePath := pathRelative workspaceRoot filePath
    let fileName := pathBasename filePath
    let ext := pathExtname filePath
    let languageId := getLanguageId ext
    some
      { source := filePath
        relativePath := relativePath
        fileName := fileName
        languageId := languageId
        fileCategory := FileTypeClassifier.classifyFile relativePath fileName
        dependencies := extractDependencies fs workspaceRoot content filePath languageId
        dependents := []
        functions := extractFunctions content languageId
        exports := extractExports content languageId }

/-- The fixed ignore test of the workspace walk. -/
def skipEntryName (n : String) : Bool :=
  jsStartsWith n "." || n == "node_modules" || n == "dist" ||
    n == "build" || n == ".git"

/-- Name of a directory entry. -/
def entryName : FsEntry → String
  | .file n => n
  | .dir n _ => n
  | .badDir n => n

/-- The recursive `walkDir` of `getAllSupportedFiles` over the entries
of one directory: skip ignored names, recurse into subdirectories
(a `badDir` contributes nothing — its `readdir` throws and the error is
swallowed), collect files with supported extensions in order. -/
def walkEntries (dirPath : String) : List FsEntry → List String
  | [] => []
  | e :: rest =>
    (if skipEntryName (entryName e) then []
     else
       match e with
       | .file n =>
         if supportedExtensionList.contains (pathExtname n) then [pathJoin dirPath n]
         else []
       | .dir n es => walkEntries (pathJoin dirPath n) es
       | .badDir _ => []) ++ walkEntries dirPath rest

/-- `CodebaseAnalyzer.getAllSupportedFiles`: walk the workspace root
(a root whose `readdir` throws yields no files). -/
def getAllSupportedFiles (fs : Fs) (workspaceRoot : String) : List String :=
  match fs.tree with
  | .dir _ es => walkEntries workspaceRoot es
  | _ => []

/-- `[...new Set(files)]`: deduplicate keeping first occurrences. -/
def dedupFirst (l : List String) : List String :=
  l.foldl (fun acc x => if acc.contains x then acc else acc ++ [x]) []

/-- The per-selected-path step of `getFilesFromPaths`: `fs.promises.stat`
is not guarded by any try/catch, so a stat failure propagates as an
exception; a file is taken as-is and a directory filters a full walk of
the workspace down to files under the selected prefix. -/
def selectStep (fs : Fs) (workspaceRoot : String) (acc : List String)
    (selectedPath : String) : Except Unit (List String) := do
  let stat ← fs.statKind selectedPath
  match stat with
  | .file => pure (acc ++ [selectedPath])
  | .dir =>
    let dirFiles := getAllSupportedFiles fs workspaceRoot
    let filtered := dirFiles.filter (fun file =>
      let fileRelative := pathRelative selectedPath file
      !(jsStartsWith fileRelative "..") && !(pathIsAbsolute fileRelative))
    pure (acc ++ filtered)
  | .other => pure acc

/-- `CodebaseAnalyzer.getFilesFromPaths`. -/
def getFilesFromPaths (fs : Fs) (workspaceRoot : String)
    (selectedPaths : List String) : Except Unit (List String) := do
  let files ← selectedPaths.foldlM (selectStep fs workspaceRoot) []
  pure (dedupFirst files)

/-- The push-if-absent backlink update of `resolveDependencies`. -/
def addDependent (modules : List (String × CodebaseModule)) (target source : String) :
    List (String × CodebaseModule) :=
  modules.map (fun p =>
    if p.1 == target then
      (p.1,
        if p.2.dependents.contains source then p.2
        else { p.2 with dependents := p.2.dependents ++ [source] })
    else p)

/-- One linking step of `resolveDependencies`, acting on a
(source, dependency) pair: when the resolved path is truthy and a key
of the current map, append the source to the target's `dependents`. -/
def depStep (acc : List (String × CodebaseModule))
    (i : String × CodebaseDependency) : List (String × CodebaseModule) :=
  match i.2.resolved with
  | none => acc
  | some r =>
    if r == "" then acc
    else if (mapGet acc r).isSome then addDependent acc r i.1
    else acc

/-- `CodebaseAnalyzer.resolveDependencies`: second pass over the module
map appending each source to its resolved target's `dependents` when the
target is a key of the map. -/
def resolveDependencies (modules : List (String × CodebaseModule)) :
    List (String × CodebaseModule) :=
  modules.foldl (fun acc p =>
    p.2.dependencies.foldl (fun acc dep => depStep acc (p.1, dep)) acc) modules

/-- The per-file step of `analyzeCodebase`'s analysis loop: insert the
analyzed module under its source path, or skip the file when analysis
failed (the error is caught, logged, and the batch continues). -/
def buildStep (fs : Fs) (workspaceRoot : String)
    (acc : List (String × CodebaseModule)) (filePath : String) :
    List (String × CodebaseModule) :=
  match analyzeFile fs workspaceRoot filePath with
  | some m => mapSet acc m.source m
  | none => acc

/-- The module map built by `analyzeCodebase`'s analysis loop. -/
def buildModules (fs : Fs) (workspaceRoot : String) (files : List String) :
    List (String × CodebaseModule) :=
  files.foldl (buildStep fs workspaceRoot) []

/-- `CodebaseAnalyzer.analyzeCodebase`: discovery (walk or explicit
paths), per-file extraction with per-file error containment, then the
dependent-linking pass. -/
def analyzeCodebase (fs : Fs) (workspaceRoot : String)
    (selectedPaths : Option (List String)) :
    Except Unit (List (String × CodebaseModule)) := do
  let filesToAnalyze ←
    match selectedPaths with
    | some ps => getFilesFromPaths fs workspaceRoot ps
    | none => pure (getAllSupportedFiles fs workspaceRoot)
  pure (resolveDependencies (buildModules fs workspaceRoot filesToAnalyze))

end CodebaseAnalyzer

/-- Coercion of a possibly-undefined string into a JS template literal
(`undefined` prints as `"undefined"`). -/
def optStr : Option String → String
  | some s => s
  | none => "undefined"

/-- `⟨s.data.drop n⟩`: remainder of a string after `n` characters. -/
def dropChars (n : Nat) (s : String) : String := ⟨s.data.drop n⟩

/-- `array.join("\n")`. -/
def joinNl : List String → String
  | [] => ""
  | [a] => a
  | a :: b :: r => a ++ "\n" ++ joinNl (b :: r)

/-- `"  ".repeat(depth)`-style repetition. -/
def strRepeat (s : String) (n : Nat) : String :=
  match n with
  | 0 => ""
  | n + 1 => s ++ strRepeat s n

/-- Mutable state of a `CodebaseMermaidGenerator` instance: the
name→ID table (`namesHashMap`) and the ID→module table
(`nodeIdToModule`), both empty on construction. -/
structure GenState where
  namesHashMap : List (String × String)
  nodeIdToModule : List (String × CodebaseModule)
deriving DecidableEq, Inhabited

/-- The state of a freshly constructed generator. -/
def GenState.init : GenState := ⟨[], []⟩

/-- Node of the subgraph hierarchy tree (`convertSubgraphSources`
builds a nested record keyed by path segment; the display text of a
node equals its segment name). -/
inductive STree where
  | mk (name : String) (node : Option String) (children : List STree)

/-- Segment name of a tree node. -/
def STree.name : STree → String
  | .mk n _ _ => n

/-- Assigned ID of a tree node. -/
def STree.node : STree → Option String
  | .mk _ o _ => o

/-- Children of a tree node. -/
def STree.children : STree → List STree
  | .mk _ _ c => c

namespace CodebaseMermaidGenerator

/-- Digit character for base-36 (upper case). -/
def base36Digit (d : Nat) : Char :=
  if d < 10 then Char.ofNat (48 + d) else Char.ofNat (55 + d)

/-- Fuel-driven digit expansion for `natToBase36`. -/
def natToBase36Go : Nat → Nat → List Char
  | 0, _ => []
  | fuel + 1, n =>
    if n = 0 then [] else natToBase36Go fuel (n / 36) ++ [base36Digit (n % 36)]

/-- `count.toString(36).toUpperCase()`. -/
def natToBase36 (n : Nat) : String :=
  if n = 0 then "0" else ⟨natToBase36Go (n + 1) n⟩

/-- `CodebaseMermaidGenerator.hashToReadableNodeName`: the three
sequential regex replacements (leading `.` / `..` special cases, then
unsafe characters to `_`). -/
def hashToReadableNodeName (nodeName : String) : String :=
  let s1 :=
    if nodeName = "." then "__currentPath__"
    else if jsStartsWith nodeName "./" then "__currentPath__" ++ dropChars 2 nodeName
    else nodeName
  let s2 :=
    if s1 = ".." then "__prevPath__"
    else if jsStartsWith s1 "../" then "__prevPath__" ++ dropChars 3 s1
    else s1
  ⟨s2.data.map (fun c =>
    if ['[', ']', '/', '.', '@', '~', '-'].contains c then '_' else c)⟩

/-- `set.add(x)` for a JS `Set` modelled as a first-occurrence list. -/
def addUnique (l : List String) (x : String) : List String :=
  if l.contains x then l else l ++ [x]

/-- The `allPaths` set built by `hashModuleNames`: every path-segment
prefix of every module's relative path, then the relative path itself,
in first-seen order. -/
def allPathsOf (modules : List (String × CodebaseModule)) : List String :=
  modules.foldl (fun acc p =>
    let segs := (splitSep p.2.relativePath).filter (fun q => q ≠ "")
    let withPrefixes := (List.range segs.length).foldl
      (fun acc i => addUnique acc (joinSep (segs.take (i + 1)))) acc
    addUnique withPrefixes p.2.relativePath) []

/-- The ID-assignment loop of `hashModuleNames`: each not-yet-mapped
path gets either `"N" + count.toString(36).toUpperCase()` (with the
counter incremented) or its readable hash, in `allPaths` order. -/
def assignIds (minify : Bool) (allPaths : List String)
    (names : List (String × String)) : List (String × String) :=
  (allPaths.foldl (fun (st : List (String × String) × Nat) relativePath =>
    if mapHas st.1 relativePath then st
    else if minify then
      (mapSet st.1 relativePath ("N" ++ natToBase36 st.2), st.2 + 1)
    else
      (mapSet st.1 relativePath (hashToReadableNodeName relativePath), st.2))
    (names, 0)).1

/-- The final loop of `hashModuleNames`: map each module's absolute
path to the ID of its relative path and record the ID→module entry. -/
def registerAbsolutePaths (modules : List (String × CodebaseModule))
    (st : GenState) : GenState :=
  modules.foldl (fun st p =>
    match mapGet st.namesHashMap p.2.relativePath with
    | some hashedId =>
      { namesHashMap := mapSet st.namesHashMap p.1 hashedId
        nodeIdToModule := mapSet st.nodeIdToModule hashedId p.2 }
    | none => st) st

/-- `CodebaseMermaidGenerator.hashModuleNames`. -/
def hashModuleNames (modules : List (String × CodebaseModule)) (minify : Bool)
    (st : GenState) : GenState :=
  registerAbsolutePaths modules
    { st with namesHashMap := assignIds minify (allPathsOf modules) st.namesHashMap }

/-- The per-segment descent of `convertSubgraphSources`' reducer: a
missing node is created (carrying the ID of its joined path-prefix),
an existing node is descended into. -/
def insertSegs (names : List (String × String)) (consumed : List String) :
    List String → List STree → List STree
  | [], forest => forest
  | s :: rest, forest =>
    let nodePath := joinSep (consumed ++ [s])
    if forest.any (fun t => t.name == s) then
      forest.map (fun t =>
        if t.name == s then
          .mk t.name t.node (insertSegs names (consumed ++ [s]) rest t.children)
        else t)
    else
      forest ++ [.mk s (mapGet names nodePath) (insertSegs names (consumed ++ [s]) rest [])]

/-- `CodebaseMermaidGenerator.convertSubgraphSources`: fold every
module's path segments into the hierarchy tree. -/
def convertSubgraphSources (names : List (String × String))
    (modules : List (String × CodebaseModule)) : List STree :=
  modules.foldl (fun tree p =>
    insertSegs names [] ((splitSep p.2.relativePath).filter (fun q => q ≠ "")) tree) []

/-- The deduplicated edge list entry of `convertEdgeSources`. -/
structure Edge where
  fromNode : String
  fromText : String
  toNode : String
  toText : String
deriving DecidableEq, Inhabited

/-- The per-dependency body of `convertEdgeSources`' inner loop: skip
unless the resolved path is truthy, `valid` is set and the target has a
truthy ID, then append one edge unless an edge with the same
(from, to) ID pair was already emitted. -/
def convertEdgeStep (names : List (String × String)) (fromNode fromText : String)
    (edges : List Edge) (dep : CodebaseDependency) : List Edge :=
  match dep.resolved with
  | none => edges
  | some r =>
    if r = "" then edges
    else if dep.valid then
      match mapGet names r with
      | none => edges
      | some toNode =>
        if toNode = "" then edges
        else if edges.any (fun e => e.fromNode == fromNode && e.toNode == toNode) then
          edges
        else
          edges ++ [{ fromNode := fromNode, fromText := fromText,
                      toNode := toNode, toText := pathBasename r }]
    else edges

/-- `CodebaseMermaidGenerator.convertEdgeSources`: iterate modules in
map order (skipping modules without a truthy ID) and fold every
dependency through `convertEdgeStep`. -/
def convertEdgeSources (names : List (String × String))
    (modules : List (String × CodebaseModule)) : List Edge :=
  modules.foldl (fun edges p =>
    match mapGet names p.1 with
    | none => edges
    | some fromNode =>
      if fromNode = "" then edges
      else
        p.2.dependencies.foldl
          (convertEdgeStep names fromNode (pathBasename p.2.relativePath)) edges) []

/-- `CodebaseMermaidGenerator.escapeMermaidText` (the four sequential
replacements commute into one character pass: no replacement output
contains a character replaced later). -/
def escapeMermaidText (text : String) : String :=
  ⟨text.data.flatMap (fun c =>
    if c = '"' then "#quot;".data
    else if c = '<' then "#60;".data
    else if c = '>' then "#62;".data
    else if c = '\n' then [' ']
    else [c])⟩

/-- `CodebaseMermaidGenerator.renderNode`. -/
def renderNode (nodeId : Option String) (text : String) : String :=
  let escapedText := if text.length > 0 then escapeMermaidText text else " "
  optStr nodeId ++ "[\"" ++ escapedText ++ "\"]"

/-- `indent` of `renderSubgraphs`. -/
def indentOf (minify : Bool) (depth : Nat) : String :=
  if minify then "" else strRepeat "  " depth

mutual

/-- `CodebaseMermaidGenerator.renderSubgraphs` on one tree node: a node
whose rendered children are empty is a file leaf, otherwise a nested
`subgraph` block. -/
def renderTree (minify : Bool) (depth : Nat) : STree → String
  | .mk name node children =>
    let indent := indentOf minify depth
    let childrenStr := joinNl (renderTrees minify (depth + 1) children)
    if childrenStr = "" then indent ++ renderNode node name
    else
      indent ++ "subgraph " ++ renderNode node name ++ "\n" ++ childrenStr ++
        "\n" ++ indent ++ "end"

/-- `renderSubgraphs` mapped over a list of sibling nodes. -/
def renderTrees (minify : Bool) (depth : Nat) : List STree → List String
  | [] => []
  | t :: ts => renderTree minify depth t :: renderTrees minify depth ts

end

/-- `renderSubgraphs` over the whole forest. -/
def renderForest (minify : Bool) (depth : Nat) (forest : List STree) : String :=
  joinNl (renderTrees minify depth forest)

/-- `CodebaseMermaidGenerator.renderEdges`. -/
def renderEdges (edges : List Edge) : String :=
  joinNl (edges.map (fun e => e.fromNode ++ "-->" ++ e.toNode))

/-- `CodebaseMermaidGenerator.renderClassDefinitions` (fixed text). -/
def renderClassDefinitions : String :=
  "classDef coreStyle fill:#90EE90,stroke:#00AA00,stroke-width:2px,color:#000\n" ++
  "classDef reportStyle fill:#FFB6C1,stroke:#CC00CC,stroke-width:2px,color:#000\n" ++
  "classDef configStyle fill:#87CEEB,stroke:#0066FF,stroke-width:2px,color:#000\n" ++
  "classDef toolStyle fill:#FFD700,stroke:#FF6600,stroke-width:2px,color:#000\n" ++
  "classDef entryStyle fill:#F5F5F5,stroke:#666666,stroke-width:2px,color:#000"

/-- `CodebaseMermaidGenerator.getNodeStyleClass`. -/
def getNodeStyleClass (category : FileCategory) : String :=
  match category with
  | .core => "coreStyle"
  | .report => "reportStyle"
  | .config => "configStyle"
  | .tool => "toolStyle"
  | .entry => "entryStyle"

/-- `CodebaseMermaidGenerator.renderNodeStyles`. -/
def renderNodeStyles (nodeIdToModule : List (String × CodebaseModule)) : String :=
  nodeIdToModule.foldl (fun styles p =>
    styles ++ "\nclass " ++ p.1 ++ " " ++ getNodeStyleClass p.2.fileCategory) ""

/-- One `linkStyle` directive (with its leading newline) of
`renderEdgeStyles`: classified styling when both endpoint modules are
known, the default high-contrast style otherwise. -/
def edgeStyleChunk (nodeIdToModule : List (String × CodebaseModule))
    (edgeIndex : Nat) (edge : Edge) : String :=
  match mapGet nodeIdToModule edge.fromNode, mapGet nodeIdToModule edge.toNode with
  | some fromModule, some toModule =>
    let edgeType := FileTypeClassifier.classifyEdge fromModule.fileCategory
      toModule.fileCategory fromModule.relativePath toModule.relativePath
    let edgeColor := FileTypeClassifier.getEdgeColor edgeType
    let edgeStyle := FileTypeClassifier.getEdgeStyle edgeType
    if edgeStyle = "dashed" then
      "\nlinkStyle " ++ toString edgeIndex ++ " stroke:" ++ edgeColor ++
        ",stroke-width:2px,stroke-dasharray: 5 5"
    else
      "\nlinkStyle " ++ toString edgeIndex ++ " stroke:" ++ edgeColor ++
        ",stroke-width:2px"
  | _, _ =>
    "\nlinkStyle " ++ toString edgeIndex ++ " stroke:#0066CC,stroke-width:2px"

/-- The accumulating loop of `renderEdgeStyles` (`edgeIndex` increments
once per edge, matched or not). -/
def renderEdgeStylesGo (nodeIdToModule : List (String × CodebaseModule))
    (edgeIndex : Nat) (styles : String) : List Edge → String
  | [] => styles
  | e :: rest =>
    renderEdgeStylesGo nodeIdToModule (edgeIndex + 1)
      (styles ++ edgeStyleChunk nodeIdToModule edgeIndex e) rest

/-- `CodebaseMermaidGenerator.renderEdgeStyles`. -/
def renderEdgeStyles (nodeIdToModule : List (String × CodebaseModule))
    (edges : List Edge) : String :=
  renderEdgeStylesGo nodeIdToModule 0 "" edges

/-- `CodebaseMermaidGenerator.generate`: hash the module names (a state
mutation), then assemble the diagram text. -/
def generate (modules : List (String × CodebaseModule)) (minify : Bool)
    (st : GenState) : String × GenState :=
  let st1 := hashModuleNames modules minify st
  let subgraphs := convertSubgraphSources st1.namesHashMap modules
  let edges := convertEdgeSources st1.namesHashMap modules
  let classDefs := renderClassDefinitions
  let nodeStyles := renderNodeStyles st1.nodeIdToModule
  let edgeStyles := renderEdgeStyles st1.nodeIdToModule edges
  ("flowchart LR\n\n" ++ classDefs ++ "\n" ++ renderForest minify 0 subgraphs ++
    "\n" ++ renderEdges edges ++ "\n" ++ nodeStyles ++ "\n" ++ edgeStyles, st1)

end CodebaseMermaidGenerator

/-- `CodebaseGraphBuilder.generateMermaid`: a fresh generator (empty
state, `minify = true`) per call. -/
def CodebaseGraphBuilder.generateMermaid
    (modules : List (String × CodebaseModule)) : String :=
  (CodebaseMermaidGenerator.generate modules true GenState.init).1

/-! ### Derived definitions used to state and prove the claims -/

/-- Keys of an association list, in order. -/
def keysOf (l : List (String × α)) : List String := l.map Prod.fst

/-- Concatenation of a list of strings. -/
def joinStrings : List String → String
  | [] => ""
  | a :: r => a ++ joinStrings r

/-- Push-if-absent, the JS `if (!xs.includes(x)) xs.push(x)` idiom. -/
def pushIfAbsent (l : List String) (s : String) : List String :=
  if l.contains s then l else l ++ [s]

namespace CodebaseMermaidGenerator

/-- `edgeStyleChunk` without its leading newline: the text of one
`linkStyle` directive. -/
def edgeStyleLine (nodeIdToModule : List (String × CodebaseModule))
    (edgeIndex : Nat) (edge : Edge) : String :=
  match mapGet nodeIdToModule edge.fromNode, mapGet nodeIdToModule edge.toNode with
  | some fromModule, some toModule =>
    let edgeType := FileTypeClassifier.classifyEdge fromModule.fileCategory
      toModule.fileCategory fromModule.relativePath toModule.relativePath
    let edgeColor := FileTypeClassifier.getEdgeColor edgeType
    let edgeStyle := FileTypeClassifier.getEdgeStyle edgeType
    if edgeStyle = "dashed" then
      "linkStyle " ++ toString edgeIndex ++ " stroke:" ++ edgeColor ++
        ",stroke-width:2px,stroke-dasharray: 5 5"
    else
      "linkStyle " ++ toString edgeIndex ++ " stroke:" ++ edgeColor ++
        ",stroke-width:2px"
  | _, _ =>
    "linkStyle " ++ toString edgeIndex ++ " stroke:#0066CC,stroke-width:2px"

/-- The `linkStyle` directive texts for an edge list, indexed from
`edgeIndex`. -/
def edgeStyleLines (nodeIdToModule : List (String × CodebaseModule)) :
    Nat → List Edge → List String
  | _, [] => []
  | i, e :: rest =>
    edgeStyleLine nodeIdToModule i e :: edgeStyleLines nodeIdToModule (i + 1) rest

/-- The edge candidate produced by one dependency inside
`convertEdgeSources` (before pair deduplication). -/
def edgeCandidate (names : List (String × String)) (fromNode fromText : String)
    (dep : CodebaseDependency) : Option Edge :=
  match dep.resolved with
  | none => none
  | some r =>
    if r = "" then none
    else if dep.valid then
      match mapGet names r with
      | none => none
      | some toNode =>
        if toNode = "" then none
        else some { fromNode := fromNode, fromText := fromText,
                    toNode := toNode, toText := pathBasename r }
    else none

/-- All edge candidates of a module map in emission order, before pair
deduplication. -/
def rawEdges (names : List (String × String))
    (modules : List (String × CodebaseModule)) : List Edge :=
  modules.flatMap (fun p =>
    match mapGet names p.1 with
    | none => []
    | some fromNode =>
      if fromNode = "" then []
      else p.2.dependencies.filterMap
        (edgeCandidate names fromNode (pathBasename p.2.relativePath)))

/-- Whether two edges have the same (fromID, toID) pair. -/
def samePair (a b : Edge) : Bool := a.fromNode == b.fromNode && a.toNode == b.toNode

/-- Append an edge unless one with the same ID pair is present. -/
def insertEdge (edges : List Edge) (e : Edge) : List Edge :=
  if edges.any (fun x => samePair x e) then edges else edges ++ [e]

/-- First-occurrence deduplication by (fromID, toID) pair. -/
def dedupPairs (l : List Edge) : List Edge := l.foldl insertEdge []

/-- Apply a list of `map.set` operations in order. -/
def applyOps (m : List (String × α)) (ops : List (String × α)) : List (String × α) :=
  ops.foldl (fun m op => mapSet m op.1 op.2) m

/-- The value of the last operation on key `q`, if any. -/
def lastOpVal (ops : List (String × α)) (q : String) : Option α :=
  ops.foldl (fun acc op => if op.1 == q then some op.2 else acc) none

/-- The `namesHashMap.set` operations performed by
`registerAbsolutePaths` when every relative-path read sees `base`. -/
def regNamesOps (modules : List (String × CodebaseModule))
    (base : List (String × String)) : List (String × String) :=
  modules.filterMap (fun p => (mapGet base p.2.relativePath).map (fun h => (p.1, h)))

/-- The `nodeIdToModule.set` operations performed by
`registerAbsolutePaths` when every relative-path read sees `base`. -/
def regNodeOps (modules : List (String × CodebaseModule))
    (base : List (String × String)) : List (String × CodebaseModule) :=
  modules.filterMap (fun p => (mapGet base p.2.relativePath).map (fun h => (h, p.2)))

end CodebaseMermaidGenerator

namespace CodebaseAnalyzer

/-- The `dependents` list of the module stored at key `q`. -/
def dependentsAt (modules : List (String × CodebaseModule)) (q : String) :
    Option (List String) :=
  (mapGet modules q).map (·.dependents)

/-- The flattened (source, dependency) instruction list of the linking
pass, in iteration order. -/
def depInstrs (modules : List (String × CodebaseModule)) :
    List (String × CodebaseDependency) :=
  modules.flatMap (fun p => p.2.dependencies.map (fun d => (p.1, d)))

/-- Whether one (source, dependency) instruction contributes a backlink
to the module at key `q` (the target key set taken from `modules`). -/
def contribFilter (modules : List (String × CodebaseModule)) (q : String)
    (sd : String × CodebaseDependency) : Option String :=
  match sd.2.resolved with
  | none => none
  | some r =>
    if r == "" then none
    else if mapHas modules r then (if r == q then some sd.1 else none)
    else none

/-- The sources whose dependencies contribute a backlink to key `q`,
in instruction order. -/
def contribsTo (modules : List (String × CodebaseModule)) (q : String) :
    List String :=
  (depInstrs modules).filterMap (contribFilter modules q)

/-- The module map with one occurrence of dependency `d` removed from
the module at key `k`. -/
def removeDepOnce (modules : List (String × CodebaseModule)) (k : String)
    (d : CodebaseDependency) : List (String × CodebaseModule) :=
  modules.map (fun p =>
    if p.1 == k then (p.1, { p.2 with dependencies := p.2.dependencies.erase d })
    else p)

end CodebaseAnalyzer

/-! ### Concrete fixtures for witnesses and counterexamples -/

/-- A filesystem with no files at all. -/
def fsTrivial : Fs :=
  { existsSync := fun _ => false, statIsFile := fun _ => false,
    contents := fun _ => none, statKind := fun _ => .error (),
    tree := .file "r" }

/-- The spec's Python scenario: `pkg/utils.py` exists on disk and
`pkg/mod.py` contains `from utils import helper`. -/
def fsPythonScenario : Fs :=
  { existsSync := fun p => p == "/ws/pkg/utils.py",
    statIsFile := fun p => p == "/ws/pkg/utils.py",
    contents := fun p => if p == "/ws/pkg/mod.py" then some "from utils import helper" else none,
    statKind := fun _ => .error (),
    tree := .file "r" }

/-- The spec's index-fallback scenario: `shared/lib` is a directory,
`shared/lib/index.ts` exists as a file, and `shared/lib.ts` does not
exist. -/
def fsSharedLib : Fs :=
  { existsSync := fun p => p == "/ws/shared/lib" || p == "/ws/shared/lib/index.ts",
    statIsFile := fun p => p == "/ws/shared/lib/index.ts",
    contents := fun _ => none, statKind := fun _ => .error (),
    tree := .file "r" }

/-- A workspace with one readable supported file whose `stat` works,
while `stat` on any other path throws. -/
def fsStatFail : Fs :=
  { existsSync := fun _ => false, statIsFile := fun _ => false,
    contents := fun p => if p == "/ws/a.ts" then some "" else none,
    statKind := fun p => if p == "/ws/a.ts" then .ok .file else .error (),
    tree := .dir "ws" [.file "a.ts"] }

/-- A valid dependency onto a retained module. -/
def depAtoB : CodebaseDependency :=
  { module := "./b", resolved := some "/ws/b.ts",
    dependencyTypes := ["import"], valid := true }

/-- A valid dependency whose resolved target is not a key of the demo
map (e.g. the target was excluded by the path filter). -/
def depGone : CodebaseDependency :=
  { module := "./gone", resolved := some "/ws/gone.ts",
    dependencyTypes := ["import"], valid := true }

/-- Demo module `a.ts` with one retained and one dropped target. -/
def modDemoA : CodebaseModule :=
  { source := "/ws/a.ts", relativePath := "a.ts", fileName := "a.ts",
    languageId := "typescript", fileCategory := .entry,
    dependencies := [depAtoB, depGone], dependents := [],
    functions := [], exports := [] }

/-- Demo module `src/b.ts`. -/
def modDemoB : CodebaseModule :=
  { source := "/ws/b.ts", relativePath := "src/b.ts", fileName := "b.ts",
    languageId := "typescript", fileCategory := .core,
    dependencies := [], dependents := [],
    functions := [], exports := [] }

/-- A small two-module map in analyzer shape (absolute keys, relative
paths without a leading separator, empty `dependents`). -/
def demoMods : List (String × CodebaseModule) :=
  [("/ws/a.ts", modDemoA), ("/ws/b.ts", modDemoB)]

/-! ### Infrastructure lemmas -/

theorem listIsInfixOf_iff {l₁ l₂ : List Char} :
    listIsInfixOf l₁ l₂ = true ↔ l₁ <:+: l₂ := by
  induction l₂ with
  | nil => simp [listIsInfixOf, List.isEmpty_iff, List.infix_nil]
  | cons a as ih =>
    simp only [listIsInfixOf, Bool.or_eq_true, ih, List.isPrefixOf_iff_prefix,
      List.infix_cons_iff]

theorem jsIncludes_of_infix {s a b : String} (h : jsIncludes s a = true)
    (hab : b.data <:+: a.data) : jsIncludes s b = true := by
  rw [jsIncludes, listIsInfixOf_iff] at h ⊢
  exact hab.trans h

/-! ### Association-list map lemmas -/

theorem mapHas_cons (a : String) (b : α) (t : List (String × α)) (q : String) :
    mapHas ((a, b) :: t) q = (a == q || mapHas t q) := by
  unfold mapHas mapGet
  rw [List.find?_cons]
  cases h : a == q <;> simp [h]

theorem mapHas_iff_keys (l : List (String × α)) (q : String) :
    mapHas l q = true ↔ q ∈ keysOf l := by
  induction l with
  | nil => simp [mapHas, mapGet, keysOf]
  | cons p t ih =>
    rw [show p = (p.1, p.2) from rfl, mapHas_cons]
    simp only [keysOf, List.map_cons, List.mem_cons, Bool.or_eq_true, beq_iff_eq, ih]
    exact or_congr eq_comm Iff.rfl

theorem mapHas_mapSet (l : List (String × α)) (k : String) (v : α) (q : String) :
    mapHas (mapSet l k v) q = true ↔ (q = k ∨ mapHas l q = true) := by
  induction l with
  | nil =>
    have hnil : mapHas ([] : List (String × α)) q = false := rfl
    rw [show mapSet ([] : List (String × α)) k v = [(k, v)] from rfl, mapHas_cons, hnil]
    simp only [Bool.or_false, beq_iff_eq, Bool.false_eq_true, or_false]
    exact eq_comm
  | cons p t ih =>
    rw [show p = (p.1, p.2) from rfl]
    unfold mapSet
    by_cases h : p.1 == k
    · rw [if_pos h]
      have hk : p.1 = k := by simpa [beq_iff_eq] using h
      rw [mapHas_cons, mapHas_cons]
      simp only [Bool.or_eq_true, beq_iff_eq, hk]
      tauto
    · rw [if_neg h]
      rw [mapHas_cons, mapHas_cons]
      simp only [Bool.or_eq_true, beq_iff_eq, ih]
      tauto

theorem mapGet_mapSet_ne (l : List (String × α)) (k : String) (v : α)
    (q : String) (h : q ≠ k) : mapGet (mapSet l k v) q = mapGet l q := by
  induction l with
  | nil =>
    simp [mapSet, mapGet, List.find?_cons, show (k == q) = false by
      simpa [beq_iff_eq] using fun hq => h hq.symm]
  | cons p t ih =>
    rw [show p = (p.1, p.2) from rfl]
    unfold mapSet
    by_cases hp : p.1 == k
    · rw [if_pos hp]
      have hk : p.1 = k := by simpa [beq_iff_eq] using hp
      unfold mapGet
      rw [List.find?_cons, List.find?_cons]
      have : ((p.1 : String) == q) = false := by
        simp [beq_iff_eq, hk]
        exact fun hq => h hq.symm
      simp [this]
    · rw [if_neg hp]
      unfold mapGet
      rw [List.find?_cons, List.find?_cons]
      cases hq : (p.1 == q) with
      | true => simp
      | false => simpa [hq] using ih

theorem mapHas_of_mapSet_self (l : List (String × α)) (k : String) (v : α) :
    mapHas (mapSet l k v) k = true :=
  (mapHas_mapSet l k v k).2 (Or.inl rfl)

theorem mapHas_mapSet_mono (l : List (String × α)) (k : String) (v : α)
    (q : String) (h : mapHas l q = true) : mapHas (mapSet l k v) q = true :=
  (mapHas_mapSet l k v q).2 (Or.inr h)

theorem mapGet_mem_keys {l : List (String × α)} {q : String} {v : α}
    (h : mapGet l q = some v) : q ∈ keysOf l :=
  (mapHas_iff_keys l q).1 (by simp [mapHas, h])

/-! ### Dependent-linking as a fold over flattened instructions -/

namespace CodebaseAnalyzer

theorem keysOf_addDependent (m : List (String × CodebaseModule)) (t s : String) :
    keysOf (addDependent m t s) = keysOf m := by
  unfold keysOf addDependent
  rw [List.map_map]
  apply List.map_congr_left
  intro p _
  simp only [Function.comp_apply]
  split <;> rfl

theorem keysOf_depStep (acc : List (String × CodebaseModule))
    (i : String × CodebaseDependency) : keysOf (depStep acc i) = keysOf acc := by
  unfold depStep
  cases i.2.resolved with
  | none => rfl
  | some r =>
    by_cases hr : r == ""
    · simp [hr]
    · by_cases hh : (mapGet acc r).isSome <;> simp [hr, hh, keysOf_addDependent]

theorem keysOf_foldl_depStep :
    ∀ (l : List (String × CodebaseDependency)) (acc : List (String × CodebaseModule)),
    keysOf (l.foldl depStep acc) = keysOf acc := by
  intro l
  induction l with
  | nil => intro acc; rfl
  | cons i is ih => intro acc; rw [List.foldl_cons, ih, keysOf_depStep]

theorem foldl_depStep_map (src : String) :
    ∀ (deps : List CodebaseDependency) (acc : List (String × CodebaseModule)),
    deps.foldl (fun acc dep => depStep acc (src, dep)) acc =
      (deps.map (fun d => (src, d))).foldl depStep acc := by
  intro deps
  induction deps with
  | nil => intro acc; rfl
  | cons d ds ih => intro acc; rw [List.foldl_cons, List.map_cons, List.foldl_cons, ih]

theorem resolveDependencies_eq_instr (modules : List (String × CodebaseModule)) :
    resolveDependencies modules = (depInstrs modules).foldl depStep modules := by
  have main : ∀ (ms : List (String × CodebaseModule)) (acc : List (String × CodebaseModule)),
      ms.foldl (fun acc p => p.2.dependencies.foldl (fun acc dep => depStep acc (p.1, dep)) acc) acc =
        (depInstrs ms).foldl depStep acc := by
    intro ms
    induction ms with
    | nil => intro acc; rfl
    | cons p ps ih =>
      intro acc
      rw [List.foldl_cons, depInstrs, List.flatMap_cons, List.foldl_append,
        foldl_depStep_map, ih]
      rfl
  exact main modules modules

theorem keysOf_resolveDependencies (modules : List (String × CodebaseModule)) :
    keysOf (resolveDependencies modules) = keysOf modules := by
  rw [resolveDependencies_eq_instr, keysOf_foldl_depStep]

theorem mapHas_resolveDependencies (modules : List (String × CodebaseModule))
    (q : String) : mapHas (resolveDependencies modules) q = mapHas modules q := by
  by_cases hq : q ∈ keysOf modules
  · rw [(mapHas_iff_keys _ _).2 hq,
      (mapHas_iff_keys _ _).2 (by rw [keysOf_resolveDependencies]; exact hq)]
  · have h1 : mapHas modules q = false := by
      cases h : mapHas modules q
      · rfl
      · exact absurd ((mapHas_iff_keys _ _).1 h) hq
    have h2 : mapHas (resolveDependencies modules) q = false := by
      cases h : mapHas (resolveDependencies modules) q
      · rfl
      · have hkeys := (mapHas_iff_keys _ q).1 h
        rw [keysOf_resolveDependencies] at hkeys
        exact absurd hkeys hq
    rw [h1, h2]

end CodebaseAnalyzer

/-! ### Edge emission: characterization as first-occurrence pair dedup -/

namespace CodebaseMermaidGenerator

theorem convertEdgeStep_eq (names : List (String × String)) (f ft : String)
    (edges : List Edge) (dep : CodebaseDependency) :
    convertEdgeStep names f ft edges dep =
      match edgeCandidate names f ft dep with
      | some e => insertEdge edges e
      | none => edges := by
  cases hres : dep.resolved with
  | none => simp [convertEdgeStep, edgeCandidate, hres]
  | some r =>
    by_cases hr : r = ""
    · simp [convertEdgeStep, edgeCandidate, hres, hr]
    · by_cases hv : dep.valid
      · cases ht : mapGet names r with
        | none => simp [convertEdgeStep, edgeCandidate, hres, hr, hv, ht]
        | some t =>
          by_cases hte : t = ""
          · simp [convertEdgeStep, edgeCandidate, hres, hr, hv, ht, hte]
          · simp [convertEdgeStep, edgeCandidate, insertEdge, samePair, hres, hr, hv, ht, hte]
      · simp [convertEdgeStep, edgeCandidate, hres, hr, hv]

theorem foldl_convertEdgeStep (names : List (String × String)) (f ft : String) :
    ∀ (deps : List CodebaseDependency) (edges : List Edge),
    deps.foldl (convertEdgeStep names f ft) edges =
      (deps.filterMap (edgeCandidate names f ft)).foldl insertEdge edges := by
  intro deps
  induction deps with
  | nil => intro edges; rfl
  | cons d ds ih =>
    intro edges
    cases hc : edgeCandidate names f ft d with
    | none =>
      rw [List.foldl_cons, convertEdgeStep_eq, hc, List.filterMap_cons, hc]
      exact ih edges
    | some e =>
      rw [List.foldl_cons, convertEdgeStep_eq, hc, List.filterMap_cons, hc, List.foldl_cons]
      exact ih (insertEdge edges e)

theorem convertEdgeSources_eq_dedup (names : List (String × String))
    (modules : List (String × CodebaseModule)) :
    convertEdgeSources names modules = dedupPairs (rawEdges names modules) := by
  have main : ∀ (ms : List (String × CodebaseModule)) (init : List Edge),
      ms.foldl (fun edges p =>
        match mapGet names p.1 with
        | none => edges
        | some fromNode =>
          if fromNode = "" then edges
          else p.2.dependencies.foldl
            (convertEdgeStep names fromNode (pathBasename p.2.relativePath)) edges) init
      = (rawEdges names ms).foldl insertEdge init := by
    intro ms
    induction ms with
    | nil => intro init; rfl
    | cons p ps ih =>
      intro init
      rw [List.foldl_cons, rawEdges, List.flatMap_cons, List.foldl_append]
      cases hf : mapGet names p.1 with
      | none => simpa [hf] using ih init
      | some fromNode =>
        by_cases hfe : fromNode = ""
        · simpa [hf, hfe] using ih init
        · simp only [hf, hfe, if_false]
          rw [foldl_convertEdgeStep]
          exact ih _
  exact main modules []

theorem mem_insertEdge {edges : List Edge} {e x : Edge}
    (hx : x ∈ insertEdge edges e) : x ∈ edges ∨ x = e := by
  unfold insertEdge at hx
  split at hx
  · exact Or.inl hx
  · rcases List.mem_append.1 hx with h | h
    · exact Or.inl h
    · exact Or.inr (List.mem_singleton.1 h)

theorem mem_foldl_insertEdge :
    ∀ {l : List Edge} {acc : List Edge} {x : Edge},
    x ∈ l.foldl insertEdge acc → x ∈ acc ∨ x ∈ l := by
  intro l
  induction l with
  | nil => intro acc x hx; exact Or.inl hx
  | cons e es ih =>
    intro acc x hx
    rcases ih (List.foldl_cons .. ▸ hx) with h | h
    · rcases mem_insertEdge h with h | h
      · exact Or.inl h
      · exact Or.inr (by simp [h])
    · exact Or.inr (List.mem_cons_of_mem _ h)

theorem dedupPairs_subset {l : List Edge} {x : Edge} (h : x ∈ dedupPairs l) :
    x ∈ l := by
  rcases mem_foldl_insertEdge h with h | h
  · exact absurd h (List.not_mem_nil x)
  · exact h

theorem samePair_self (e : Edge) : samePair e e = true := by
  simp [samePair]

theorem insertEdge_hasPair (edges : List Edge) (e : Edge) :
    (insertEdge edges e).any (fun x => samePair x e) = true := by
  unfold insertEdge
  split
  · assumption
  · simp [List.any_append, samePair_self]

theorem hasPair_insertEdge_mono {edges : List Edge} {y : Edge} (e : Edge)
    (h : edges.any (fun x => samePair x y) = true) :
    (insertEdge edges e).any (fun x => samePair x y) = true := by
  unfold insertEdge
  split
  · exact h
  · simp [List.any_append, h]

theorem hasPair_foldl_mono :
    ∀ (l : List Edge) {acc : List Edge} {y : Edge},
    acc.any (fun x => samePair x y) = true →
    (l.foldl insertEdge acc).any (fun x => samePair x y) = true := by
  intro l
  induction l with
  | nil => intro acc y h; exact h
  | cons e es ih =>
    intro acc y h
    rw [List.foldl_cons]
    exact ih (hasPair_insertEdge_mono e h)

theorem hasPair_foldl_of_mem :
    ∀ {l : List Edge} {acc : List Edge} {e : Edge}, e ∈ l →
    (l.foldl insertEdge acc).any (fun x => samePair x e) = true := by
  intro l
  induction l with
  | nil => intro acc e he; exact absurd he (List.not_mem_nil e)
  | cons a as ih =>
    intro acc e he
    rw [List.foldl_cons]
    rcases List.mem_cons.1 he with h | h
    · subst h
      exact hasPair_foldl_mono as (insertEdge_hasPair acc e)
    · exact ih h

theorem dedupPairs_hasPair {l : List Edge} {e : Edge} (he : e ∈ l) :
    ∃ x ∈ dedupPairs l, samePair x e = true := by
  have h := @hasPair_foldl_of_mem _ [] _ he
  rcases List.any_eq_true.1 h with ⟨x, hx, hp⟩
  exact ⟨x, hx, hp⟩

theorem insertEdge_pairwise {edges : List Edge} {e : Edge}
    (h : edges.Pairwise (fun a b => samePair a b = false)) :
    (insertEdge edges e).Pairwise (fun a b => samePair a b = false) := by
  unfold insertEdge
  split
  · exact h
  · rename_i hany
    refine List.pairwise_append.2 ⟨h, List.pairwise_singleton _ _, ?_⟩
    intro a ha b hb
    rw [List.mem_singleton.1 hb]
    have := List.any_eq_false.1 (Bool.not_eq_true _ ▸ hany)
    exact Bool.eq_false_iff.2 (this a ha)

theorem foldl_insertEdge_pairwise :
    ∀ (l : List Edge) {acc : List Edge},
    acc.Pairwise (fun a b => samePair a b = false) →
    (l.foldl insertEdge acc).Pairwise (fun a b => samePair a b = false) := by
  intro l
  induction l with
  | nil => intro acc h; exact h
  | cons e es ih =>
    intro acc h
    rw [List.foldl_cons]
    exact ih (insertEdge_pairwise h)

theorem dedupPairs_pairwise (l : List Edge) :
    (dedupPairs l).Pairwise (fun a b => samePair a b = false) :=
  foldl_insertEdge_pairwise l List.Pairwise.nil

theorem rawEdges_mem {names : List (String × String)}
    {modules : List (String × CodebaseModule)} {e : Edge}
    (he : e ∈ rawEdges names modules) :
    ∃ p ∈ modules, ∃ dep ∈ p.2.dependencies, dep.valid = true ∧
      ∃ r, dep.resolved = some r ∧ r ≠ "" ∧
        mapGet names r = some e.toNode ∧ e.toNode ≠ "" := by
  rcases List.mem_flatMap.1 he with ⟨p, hp, hin⟩
  cases hf : mapGet names p.1 with
  | none => simp only [hf] at hin; exact absurd hin (List.not_mem_nil e)
  | some f =>
    simp only [hf] at hin
    by_cases hfe : f = ""
    · rw [if_pos hfe] at hin; exact absurd hin (List.not_mem_nil e)
    · rw [if_neg hfe] at hin
      rcases List.mem_filterMap.1 hin with ⟨dep, hdep, hc⟩
      refine ⟨p, hp, dep, hdep, ?_⟩
      unfold edgeCandidate at hc
      cases hres : dep.resolved with
      | none => simp only [hres] at hc; cases hc
      | some r =>
        simp only [hres] at hc
        by_cases hr : r = ""
        · rw [if_pos hr] at hc; cases hc
        · rw [if_neg hr] at hc
          by_cases hv : dep.valid
          · rw [if_pos hv] at hc
            cases ht : mapGet names r with
            | none => simp only [ht] at hc; cases hc
            | some t =>
              simp only [ht] at hc
              by_cases hte : t = ""
              · rw [if_pos hte] at hc; cases hc
              · rw [if_neg hte] at hc
                cases hc
                exact ⟨hv, r, rfl, hr, ht, hte⟩
          · rw [if_neg hv] at hc; cases hc

theorem rawEdges_mem_of_dep {names : List (String × String)}
    {modules : List (String × CodebaseModule)} {p : String × CodebaseModule}
    {dep : CodebaseDependency} {f r t : String}
    (hp : p ∈ modules) (hdep : dep ∈ p.2.dependencies)
    (hf : mapGet names p.1 = some f) (hfe : f ≠ "")
    (hres : dep.resolved = some r) (hr : r ≠ "") (hv : dep.valid = true)
    (ht : mapGet names r = some t) (hte : t ≠ "") :
    ({ fromNode := f, fromText := pathBasename p.2.relativePath,
       toNode := t, toText := pathBasename r } : Edge) ∈ rawEdges names modules := by
  refine List.mem_flatMap.2 ⟨p, hp, ?_⟩
  simp only [hf]
  rw [if_neg hfe]
  refine List.mem_filterMap.2 ⟨dep, hdep, ?_⟩
  unfold edgeCandidate
  simp only [hres]
  rw [if_neg hr, if_pos hv]
  simp only [ht]
  rw [if_neg hte]

end CodebaseMermaidGenerator

/-! ### C10: the entry rule's `options` test shadows the tool rule -/

/-- C10: for every relative path and file name whose lower-cased form
contains `"options"` (in particular any name containing
`"options-compatible"`), `classifyFile` returns `entry`: the entry
rule's filename-contains-`"options"` test fires before the tool rule is
ever evaluated, so the tool rule's `"options-compatible"` test can
never be the deciding match. -/
theorem c10_options_entry_shadows_tool :
    (∀ relativePath fileName,
      jsIncludes (jsToLower fileName) "options" = true →
      FileTypeClassifier.classifyFile relativePath fileName = .entry) ∧
    (∀ relativePath fileName,
      jsIncludes (jsToLower fileName) "options-compatible" = true →
      FileTypeClassifier.classifyFile relativePath fileName = .entry ∧
      FileTypeClassifier.classifyFile relativePath fileName ≠ .tool) := by
  have base : ∀ relativePath fileName,
      jsIncludes (jsToLower fileName) "options" = true →
      FileTypeClassifier.classifyFile relativePath fileName = .entry := by
    intro relativePath fileName h
    unfold FileTypeClassifier.classifyFile
    simp [h]
  refine ⟨base, fun relativePath fileName h => ?_⟩
  have hopt : jsIncludes (jsToLower fileName) "options" = true :=
    jsIncludes_of_infix h (by
      rw [show "options".data <:+: "options-compatible".data ↔
          listIsInfixOf "options".data "options-compatible".data = true from
          listIsInfixOf_iff.symm]
      decide)
  exact ⟨base relativePath fileName hopt, by simp [base relativePath fileName hopt]⟩

/-- C10 witness: a concrete `options-compatible` filename classifies as
entry regardless of its path. -/
theorem c10_witness :
    jsIncludes (jsToLower "x-Options-Compatible.ts") "options-compatible" = true ∧
    FileTypeClassifier.classifyFile "src/tools/x" "x-Options-Compatible.ts" = .entry ∧
    FileTypeClassifier.classifyFile "src/tools/x" "x-Options-Compatible.ts" ≠ .tool :=
  ⟨by decide,
   (c10_options_entry_shadows_tool.2 "src/tools/x" "x-Options-Compatible.ts" (by decide)).1,
   (c10_options_entry_shadows_tool.2 "src/tools/x" "x-Options-Compatible.ts" (by decide)).2⟩

/-! ### C9: which `index.*` filenames the entry rule matches -/

/-- C9 counterexample: `index.cjs` is a supported module-entry filename
(`.cjs` is in the supported extension set), yet `classifyFile` returns
`report` for it under a `/report/` path — the entry rule's filename
list does not contain `index.cjs`, so the claim that every
`index.<supported extension>` filename classifies as entry is false. -/
theorem c9_counterexample :
    ".cjs" ∈ supportedExtensionList ∧
    FileTypeClassifier.classifyFile "src/report/index.cjs" "index.cjs" = .report ∧
    FileTypeClassifier.classifyFile "src/report/index.cjs" "index.cjs" ≠ .entry := by
  refine ⟨by decide, by decide, by decide⟩

/-- C9 (amended): the rules are evaluated entry → report → tool →
config → core with first match winning and default entry, and the entry
rule matches exactly the filenames `index.ts`, `index.js`, `index.tsx`,
`index.jsx`, `index.mjs` and `__init__.py` (case-insensitively) among
canonical module-entry names — for those, `classifyFile` returns
`entry` for every relative path.  (`index.cjs` and other
`index.<supported extension>` names are not entry-rule matches and may
classify by their path.) -/
theorem c9_entry_filenames (relativePath fileName : String)
    (h : jsToLower fileName ∈
      ["index.ts", "index.js", "index.tsx", "index.jsx", "index.mjs", "__init__.py"]) :
    FileTypeClassifier.classifyFile relativePath fileName = .entry := by
  simp only [List.mem_cons, List.not_mem_nil, or_false] at h
  unfold FileTypeClassifier.classifyFile
  rcases h with h | h | h | h | h | h <;> simp [h]

/-- C9 witness: a capitalized `INDEX.TS` under a config-flavored path
still classifies as entry via the first rule. -/
theorem c9_witness :
    FileTypeClassifier.classifyFile "any/config/INDEX.TS" "INDEX.TS" = .entry :=
  c9_entry_filenames "any/config/INDEX.TS" "INDEX.TS" (by decide)

/-! ### C1: Python resolution of a separator-free module name -/

/-- C1 counterexample: in the spec scenario (`pkg/utils.py` exists on
disk, `pkg/mod.py` contains `from utils import helper`) the extracted
dependency has `resolved = none` and `valid = false` — not the absolute
path of `pkg/utils.py` — because `resolvePythonModule` skips any module
name containing no path separator before probing the filesystem. -/
theorem c1_counterexample :
    fsPythonScenario.existsSync "/ws/pkg/utils.py" = true ∧
    fsPythonScenario.statIsFile "/ws/pkg/utils.py" = true ∧
    CodebaseAnalyzer.extractDependencies fsPythonScenario "/ws"
      "from utils import helper" "/ws/pkg/mod.py" "python" =
      [{ module := "utils", resolved := none, dependencyTypes := ["import"],
         valid := false }] := by
  refine ⟨by decide, by decide, by decide⟩

/-- C1 (amended): for a Python import whose extracted module name
contains no path separator (`/` or `\`) — such as `utils` in
`from utils import helper` — resolution returns `none` without probing
the filesystem (for every filesystem, even one where `pkg/utils.py`
exists), and the recorded dependency has `resolved = none` and
`valid = false`. -/
theorem c1_python_separator_free_skipped (fs : Fs)
    (workspaceRoot fromFile modulePath : String)
    (h1 : jsIncludes modulePath "/" = false)
    (h2 : jsIncludes modulePath "\\" = false) :
    CodebaseAnalyzer.resolvePythonModule fs workspaceRoot modulePath fromFile = none ∧
    CodebaseAnalyzer.mkPythonDependency fs workspaceRoot fromFile modulePath =
      { module := modulePath, resolved := none, dependencyTypes := ["import"],
        valid := false } := by
  have hr : CodebaseAnalyzer.resolvePythonModule fs workspaceRoot modulePath fromFile = none := by
    unfold CodebaseAnalyzer.resolvePythonModule
    simp [h1, h2]
  exact ⟨hr, by simp [CodebaseAnalyzer.mkPythonDependency, hr]⟩

/-- C1 witness: the amended theorem applied to the spec scenario's
filesystem and module name. -/
theorem c1_witness :
    fsPythonScenario.existsSync "/ws/pkg/utils.py" = true ∧
    CodebaseAnalyzer.resolvePythonModule fsPythonScenario "/ws" "utils" "/ws/pkg/mod.py" = none :=
  ⟨by decide,
   (c1_python_separator_free_skipped fsPythonScenario "/ws" "/ws/pkg/mod.py" "utils"
     (by decide) (by decide)).1⟩

/-! ### C3: render-time edge deduplication -/

/-- C3: during edge emission the renderer iterates modules in map order
and, for each dependency whose resolved path is truthy, valid, and has
a known (truthy) node ID, emits one directed edge.  The emitted list is
exactly the first-occurrence deduplication of the raw candidate list by
(fromID, toID) pair (so the first occurrence wins and later duplicates
— e.g. the same import matched by both the import scan and the require
scan — are dropped silently), no two emitted edges share a pair, and
every qualifying dependency has its pair represented. -/
theorem c3_edge_dedup (names : List (String × String))
    (modules : List (String × CodebaseModule)) :
    CodebaseMermaidGenerator.convertEdgeSources names modules =
      CodebaseMermaidGenerator.dedupPairs
        (CodebaseMermaidGenerator.rawEdges names modules) ∧
    (CodebaseMermaidGenerator.convertEdgeSources names modules).Pairwise
      (fun a b => CodebaseMermaidGenerator.samePair a b = false) ∧
    (∀ p ∈ modules, ∀ dep ∈ p.2.dependencies, ∀ f r t : String,
      mapGet names p.1 = some f → f ≠ "" →
      dep.resolved = some r → r ≠ "" → dep.valid = true →
      mapGet names r = some t → t ≠ "" →
      ∃ e ∈ CodebaseMermaidGenerator.convertEdgeSources names modules,
        e.fromNode = f ∧ e.toNode = t) := by
  refine ⟨CodebaseMermaidGenerator.convertEdgeSources_eq_dedup names modules, ?_, ?_⟩
  · rw [CodebaseMermaidGenerator.convertEdgeSources_eq_dedup]
    exact CodebaseMermaidGenerator.dedupPairs_pairwise _
  · intro p hp dep hdep f r t hf hfe hres hr hv ht hte
    have hraw := CodebaseMermaidGenerator.rawEdges_mem_of_dep hp hdep hf hfe hres hr hv ht hte
    rcases CodebaseMermaidGenerator.dedupPairs_hasPair hraw with ⟨x, hx, hpair⟩
    rw [CodebaseMermaidGenerator.convertEdgeSources_eq_dedup]
    refine ⟨x, hx, ?_⟩
    simpa [CodebaseMermaidGenerator.samePair] using hpair

/-- C3 witness: in the demo map, module `a.ts`'s valid dependency onto
`b.ts` yields an edge with the expected ID pair. -/
theorem c3_witness :
    ∃ e ∈ CodebaseMermaidGenerator.convertEdgeSources
        [("/ws/a.ts", "N0"), ("/ws/b.ts", "N1")] demoMods,
      e.fromNode = "N0" ∧ e.toNode = "N1" :=
  (c3_edge_dedup [("/ws/a.ts", "N0"), ("/ws/b.ts", "N1")] demoMods).2.2
    ("/ws/a.ts", modDemoA) (by decide) depAtoB (by decide)
    "N0" "/ws/b.ts" "N1" (by decide) (by decide) (by decide) (by decide)
    (by decide) (by decide) (by decide)

/-! ### C5: external-module short-circuit -/

/-- C5: a JS/TS import path beginning with neither `.` nor `/` resolves
to `none` for every filesystem (the quantification over `fs` shows no
filesystem probe can influence the result), its recorded dependency has
`resolved = none` and `valid = false`, and no such dependency can
produce a rendered edge: every emitted edge comes from a dependency
that is valid with a nonempty resolved path. -/
theorem c5_external_short_circuit (fs : Fs)
    (workspaceRoot fromFile modulePath : String)
    (h1 : jsStartsWith modulePath "." = false)
    (h2 : jsStartsWith modulePath "/" = false) :
    CodebaseAnalyzer.resolveModulePath fs workspaceRoot modulePath fromFile = none ∧
    (∀ depType, CodebaseAnalyzer.mkJsDependency fs workspaceRoot fromFile depType modulePath =
      { module := modulePath, resolved := none, dependencyTypes := [depType],
        valid := false }) ∧
    (∀ (names : List (String × String)) (modules : List (String × CodebaseModule))
       (e : CodebaseMermaidGenerator.Edge),
      e ∈ CodebaseMermaidGenerator.convertEdgeSources names modules →
      ∃ p ∈ modules, ∃ dep ∈ p.2.dependencies, dep.valid = true ∧
        ∃ r, dep.resolved = some r ∧ r ≠ "") := by
  have hr : CodebaseAnalyzer.resolveModulePath fs workspaceRoot modulePath fromFile = none := by
    unfold CodebaseAnalyzer.resolveModulePath
    simp [h1, h2]
  refine ⟨hr, fun depType => by simp [CodebaseAnalyzer.mkJsDependency, hr], ?_⟩
  intro names modules e he
  rw [CodebaseMermaidGenerator.convertEdgeSources_eq_dedup] at he
  rcases CodebaseMermaidGenerator.rawEdges_mem
      (CodebaseMermaidGenerator.dedupPairs_subset he) with
    ⟨p, hp, dep, hdep, hv, r, hres, hrne, _, _⟩
  exact ⟨p, hp, dep, hdep, hv, r, hres, hrne⟩

/-- C5 witness: `lodash` resolves to `none` even on a filesystem with
files present, and extracting `import lodash from "lodash"` records an
invalid dependency with no resolved path. -/
theorem c5_witness :
    CodebaseAnalyzer.resolveModulePath fsSharedLib "/ws" "lodash" "/ws/a.ts" = none ∧
    CodebaseAnalyzer.extractDependencies fsTrivial "/ws"
      "import lodash from \"lodash\"" "/ws/a.ts" "javascript" =
      [{ module := "lodash", resolved := none, dependencyTypes := ["import"],
         valid := false }] :=
  ⟨(c5_external_short_circuit fsSharedLib "/ws" "/ws/a.ts" "lodash"
      (by decide) (by decide)).1,
   by decide⟩

/-! ### C6: JS/TS probe order -/

namespace CodebaseAnalyzer

theorem probeExtensions_none (fs : Fs) (resolved : String) :
    ∀ l : List String, (∀ ext ∈ l, fileProbe fs (resolved ++ ext) = false) →
    probeExtensions fs resolved l = none := by
  intro l
  induction l with
  | nil => intro _; rfl
  | cons a as ih =>
    intro h
    unfold probeExtensions
    rw [if_neg (by simp [h a (by simp)])]
    exact ih (fun ext hx => h ext (List.mem_cons_of_mem _ hx))

theorem probeExtensions_first (fs : Fs) (resolved : String) :
    ∀ (l : List String) (i : Nat) (hi : i < l.length),
    (∀ ext ∈ l.take i, fileProbe fs (resolved ++ ext) = false) →
    fileProbe fs (resolved ++ l.get ⟨i, hi⟩) = true →
    probeExtensions fs resolved l = some (resolved ++ l.get ⟨i, hi⟩) := by
  intro l
  induction l with
  | nil => intro i hi; exact absurd hi (by simp)
  | cons a as ih =>
    intro i hi hpre hhit
    cases i with
    | zero =>
      unfold probeExtensions
      rw [if_pos (by simpa using hhit)]
      rfl
    | succ n =>
      have ha : fileProbe fs (resolved ++ a) = false :=
        hpre a (by simp [List.take_succ_cons])
      unfold probeExtensions
      rw [if_neg (by simp [ha])]
      exact ih n (by simpa using hi)
        (fun ext hx => hpre ext (by simp [List.take_succ_cons, hx]))
        (by simpa using hhit)

theorem probeIndexFiles_none (fs : Fs) (resolved : String) :
    ∀ l : List String, (∀ idx ∈ l, fs.existsSync (pathJoin resolved idx) = false) →
    probeIndexFiles fs resolved l = none := by
  intro l
  induction l with
  | nil => intro _; rfl
  | cons a as ih =>
    intro h
    unfold probeIndexFiles
    rw [if_neg (by simp [h a (by simp)])]
    exact ih (fun idx hx => h idx (List.mem_cons_of_mem _ hx))

theorem probeIndexFiles_first (fs : Fs) (resolved : String) :
    ∀ (l : List String) (i : Nat) (hi : i < l.length),
    (∀ idx ∈ l.take i, fs.existsSync (pathJoin resolved idx) = false) →
    fs.existsSync (pathJoin resolved (l.get ⟨i, hi⟩)) = true →
    probeIndexFiles fs resolved l = some (pathJoin resolved (l.get ⟨i, hi⟩)) := by
  intro l
  induction l with
  | nil => intro i hi; exact absurd hi (by simp)
  | cons a as ih =>
    intro i hi hpre hhit
    cases i with
    | zero =>
      unfold probeIndexFiles
      rw [if_pos (by simpa using hhit)]
      rfl
    | succ n =>
      have ha : fs.existsSync (pathJoin resolved a) = false :=
        hpre a (by simp [List.take_succ_cons])
      unfold probeIndexFiles
      rw [if_neg (by simp [ha])]
      exact ih n (by simpa using hi)
        (fun idx hx => hpre idx (by simp [List.take_succ_cons, hx]))
        (by simpa using hhit)

theorem resolveModulePath_eq_body (fs : Fs)
    (workspaceRoot modulePath fromFile : String)
    (hrel : jsStartsWith modulePath "." = true ∨ jsStartsWith modulePath "/" = true) :
    resolveModulePath fs workspaceRoot modulePath fromFile =
      (match probeExtensions fs (resolvedBase workspaceRoot modulePath fromFile)
          resolveExtensionList with
       | some hit => some hit
       | none =>
         probeIndexFiles fs (resolvedBase workspaceRoot modulePath fromFile)
           indexFileList) := by
  unfold resolveModulePath resolvedBase
  rcases hrel with h | h <;> simp [h]

/-- C6: for every relative or root-anchored JS/TS import path, the file
candidates are probed in the fixed order no-extension, `.js`, `.ts`,
`.jsx`, `.tsx`, `.mjs`, `.cjs` with the first existing regular file
winning; only when no file candidate exists is the path probed as a
directory containing `index.js`, `index.ts`, `index.jsx`, `index.tsx`
in that order; when everything fails the result is `none`. -/
theorem c6_resolution_order (fs : Fs)
    (workspaceRoot modulePath fromFile : String)
    (hrel : jsStartsWith modulePath "." = true ∨ jsStartsWith modulePath "/" = true) :
    (∀ i (hi : i < CodebaseAnalyzer.resolveExtensionList.length),
      (∀ ext ∈ CodebaseAnalyzer.resolveExtensionList.take i,
        CodebaseAnalyzer.fileProbe fs
          (CodebaseAnalyzer.resolvedBase workspaceRoot modulePath fromFile ++ ext) = false) →
      CodebaseAnalyzer.fileProbe fs
        (CodebaseAnalyzer.resolvedBase workspaceRoot modulePath fromFile ++
          CodebaseAnalyzer.resolveExtensionList.get ⟨i, hi⟩) = true →
      CodebaseAnalyzer.resolveModulePath fs workspaceRoot modulePath fromFile =
        some (CodebaseAnalyzer.resolvedBase workspaceRoot modulePath fromFile ++
          CodebaseAnalyzer.resolveExtensionList.get ⟨i, hi⟩)) ∧
    ((∀ ext ∈ CodebaseAnalyzer.resolveExtensionList,
        CodebaseAnalyzer.fileProbe fs
          (CodebaseAnalyzer.resolvedBase workspaceRoot modulePath fromFile ++ ext) = false) →
      (∀ i (hi : i < CodebaseAnalyzer.indexFileList.length),
        (∀ idx ∈ CodebaseAnalyzer.indexFileList.take i,
          fs.existsSync (pathJoin
            (CodebaseAnalyzer.resolvedBase workspaceRoot modulePath fromFile) idx) = false) →
        fs.existsSync (pathJoin
          (CodebaseAnalyzer.resolvedBase workspaceRoot modulePath fromFile)
          (CodebaseAnalyzer.indexFileList.get ⟨i, hi⟩)) = true →
        CodebaseAnalyzer.resolveModulePath fs workspaceRoot modulePath fromFile =
          some (pathJoin
            (CodebaseAnalyzer.resolvedBase workspaceRoot modulePath fromFile)
            (CodebaseAnalyzer.indexFileList.get ⟨i, hi⟩)))) ∧
    ((∀ ext ∈ CodebaseAnalyzer.resolveExtensionList,
        CodebaseAnalyzer.fileProbe fs
          (CodebaseAnalyzer.resolvedBase workspaceRoot modulePath fromFile ++ ext) = false) →
      (∀ idx ∈ CodebaseAnalyzer.indexFileList,
        fs.existsSync (pathJoin
          (CodebaseAnalyzer.resolvedBase workspaceRoot modulePath fromFile) idx) = false) →
      CodebaseAnalyzer.resolveModulePath fs workspaceRoot modulePath fromFile = none) := by
  refine ⟨?_, ?_, ?_⟩
  · intro i hi hpre hhit
    rw [resolveModulePath_eq_body fs workspaceRoot modulePath fromFile hrel]
    rw [probeExtensions_first fs _ _ i hi hpre hhit]
  · intro hext i hi hpre hhit
    rw [resolveModulePath_eq_body fs workspaceRoot modulePath fromFile hrel]
    rw [probeExtensions_none fs _ _ hext]
    exact probeIndexFiles_first fs _ _ i hi hpre hhit
  · intro hext hidx
    rw [resolveModulePath_eq_body fs workspaceRoot modulePath fromFile hrel]
    rw [probeExtensions_none fs _ _ hext]
    exact probeIndexFiles_none fs _ _ hidx

end CodebaseAnalyzer

/-- C6 witness: the spec's index-fallback scenario — importing
`./shared/lib` where `shared/lib/index.ts` exists but no
`shared/lib.ts` resolves to `shared/lib/index.ts` via the second
index candidate. -/
theorem c6_witness :
    CodebaseAnalyzer.resolveModulePath fsSharedLib "/ws" "./shared/lib" "/ws/x.ts" =
      some "/ws/shared/lib/index.ts" := by
  have h := (CodebaseAnalyzer.c6_resolution_order fsSharedLib "/ws" "./shared/lib" "/ws/x.ts"
      (Or.inl (by decide))).2.1 (by decide) 1 (by decide) (by decide) (by decide)
  rw [h]
  decide

/-! ### C2: edge-style / edge-emission alignment -/

namespace CodebaseMermaidGenerator

theorem edgeStyleChunk_eq (nidm : List (String × CodebaseModule)) (i : Nat)
    (e : Edge) : edgeStyleChunk nidm i e = "\n" ++ edgeStyleLine nidm i e := by
  have lit : ("\nlinkStyle " : String) = "\n" ++ "linkStyle " := by decide
  cases h1 : mapGet nidm e.fromNode with
  | none => simp only [edgeStyleChunk, edgeStyleLine, h1, lit, String.append_assoc]
  | some fm =>
    cases h2 : mapGet nidm e.toNode with
    | none => simp only [edgeStyleChunk, edgeStyleLine, h1, h2, lit, String.append_assoc]
    | some tm =>
      simp only [edgeStyleChunk, edgeStyleLine, h1, h2]
      split <;> simp only [lit, String.append_assoc]

theorem renderEdgeStylesGo_eq (nidm : List (String × CodebaseModule)) :
    ∀ (es : List Edge) (i : Nat) (acc : String),
    renderEdgeStylesGo nidm i acc es =
      acc ++ joinStrings ((edgeStyleLines nidm i es).map (fun l => "\n" ++ l)) := by
  intro es
  induction es with
  | nil => intro i acc; simp [renderEdgeStylesGo, edgeStyleLines, joinStrings]
  | cons e rest ih =>
    intro i acc
    rw [renderEdgeStylesGo, ih (i + 1) (acc ++ edgeStyleChunk nidm i e)]
    rw [edgeStyleLines, List.map_cons, joinStrings, edgeStyleChunk_eq]
    rw [String.append_assoc, String.append_assoc]

theorem renderEdgeStyles_eq (nidm : List (String × CodebaseModule)) (es : List Edge) :
    renderEdgeStyles nidm es =
      joinStrings ((edgeStyleLines nidm 0 es).map (fun l => "\n" ++ l)) := by
  rw [renderEdgeStyles, renderEdgeStylesGo_eq, String.empty_append]

theorem edgeStyleLines_length (nidm : List (String × CodebaseModule)) :
    ∀ (es : List Edge) (i : Nat), (edgeStyleLines nidm i es).length = es.length := by
  intro es
  induction es with
  | nil => intro i; rfl
  | cons e rest ih => intro i; simp [edgeStyleLines, ih]

theorem edgeStyleLine_shape (nidm : List (String × CodebaseModule)) (i : Nat)
    (e : Edge) :
    ∃ rest, edgeStyleLine nidm i e = "linkStyle " ++ toString i ++ " stroke:" ++ rest := by
  have lit : (" stroke:#0066CC,stroke-width:2px" : String) =
      " stroke:" ++ "#0066CC,stroke-width:2px" := by decide
  cases h1 : mapGet nidm e.fromNode with
  | none =>
    refine ⟨"#0066CC,stroke-width:2px", ?_⟩
    simp only [edgeStyleLine, h1, lit, String.append_assoc]
  | some fm =>
    cases h2 : mapGet nidm e.toNode with
    | none =>
      refine ⟨"#0066CC,stroke-width:2px", ?_⟩
      simp only [edgeStyleLine, h1, h2, lit, String.append_assoc]
    | some tm =>
      by_cases hd : FileTypeClassifier.getEdgeStyle
          (FileTypeClassifier.classifyEdge fm.fileCategory tm.fileCategory
            fm.relativePath tm.relativePath) = "dashed"
      · refine ⟨FileTypeClassifier.getEdgeColor
            (FileTypeClassifier.classifyEdge fm.fileCategory tm.fileCategory
              fm.relativePath tm.relativePath) ++
            ",stroke-width:2px,stroke-dasharray: 5 5", ?_⟩
        simp only [edgeStyleLine, h1, h2]
        rw [if_pos hd]
        simp only [String.append_assoc]
      · refine ⟨FileTypeClassifier.getEdgeColor
            (FileTypeClassifier.classifyEdge fm.fileCategory tm.fileCategory
              fm.relativePath tm.relativePath) ++ ",stroke-width:2px", ?_⟩
        simp only [edgeStyleLine, h1, h2]
        rw [if_neg hd]
        simp only [String.append_assoc]

theorem edgeStyleLines_get_shape (nidm : List (String × CodebaseModule)) :
    ∀ (es : List Edge) (i k : Nat) (hk : k < (edgeStyleLines nidm i es).length),
    ∃ rest, (edgeStyleLines nidm i es).get ⟨k, hk⟩ =
      "linkStyle " ++ toString (i + k) ++ " stroke:" ++ rest := by
  intro es
  induction es with
  | nil => intro i k hk; exact absurd hk (by simp [edgeStyleLines])
  | cons e rest ih =>
    intro i k hk
    cases k with
    | zero => simpa using edgeStyleLine_shape nidm i e
    | succ n =>
      have h := ih (i + 1) n (by
        have := hk
        simpa [edgeStyleLines] using this)
      have harith : i + 1 + n = i + (n + 1) := by omega
      rw [harith] at h
      simpa [edgeStyleLines] using h

end CodebaseMermaidGenerator

/-- C2: for every finalized module map, the rendered style block
consists of exactly one `linkStyle` directive per deduplicated edge
(`N` directives for `N` edges), appended in the exact same order as the
edges with the `k`-th directive addressing edge index `k`, and the
generated diagram text places that style block verbatim after all other
sections — the style list is built in one pass over the edge list and
never re-sorted. -/
theorem c2_edge_style_alignment (modules : List (String × CodebaseModule))
    (minify : Bool) (st0 : GenState) :
    CodebaseMermaidGenerator.renderEdgeStyles
        (CodebaseMermaidGenerator.hashModuleNames modules minify st0).nodeIdToModule
        (CodebaseMermaidGenerator.convertEdgeSources
          (CodebaseMermaidGenerator.hashModuleNames modules minify st0).namesHashMap modules) =
      joinStrings ((CodebaseMermaidGenerator.edgeStyleLines
        (CodebaseMermaidGenerator.hashModuleNames modules minify st0).nodeIdToModule 0
        (CodebaseMermaidGenerator.convertEdgeSources
          (CodebaseMermaidGenerator.hashModuleNames modules minify st0).namesHashMap modules)).map
          (fun l => "\n" ++ l)) ∧
    (CodebaseMermaidGenerator.edgeStyleLines
        (CodebaseMermaidGenerator.hashModuleNames modules minify st0).nodeIdToModule 0
        (CodebaseMermaidGenerator.convertEdgeSources
          (CodebaseMermaidGenerator.hashModuleNames modules minify st0).namesHashMap modules)).length =
      (CodebaseMermaidGenerator.convertEdgeSources
        (CodebaseMermaidGenerator.hashModuleNames modules minify st0).namesHashMap modules).length ∧
    (∀ k (hk : k < (CodebaseMermaidGenerator.edgeStyleLines
        (CodebaseMermaidGenerator.hashModuleNames modules minify st0).nodeIdToModule 0
        (CodebaseMermaidGenerator.convertEdgeSources
          (CodebaseMermaidGenerator.hashModuleNames modules minify st0).namesHashMap modules)).length),
      ∃ rest, (CodebaseMermaidGenerator.edgeStyleLines
        (CodebaseMermaidGenerator.hashModuleNames modules minify st0).nodeIdToModule 0
        (CodebaseMermaidGenerator.convertEdgeSources
          (CodebaseMermaidGenerator.hashModuleNames modules minify st0).namesHashMap modules)).get ⟨k, hk⟩ =
        "linkStyle " ++ toString k ++ " stroke:" ++ rest) ∧
    (CodebaseMermaidGenerator.generate modules minify st0).1 =
      "flowchart LR\n\n" ++ CodebaseMermaidGenerator.renderClassDefinitions ++ "\n" ++
        CodebaseMermaidGenerator.renderForest minify 0
          (CodebaseMermaidGenerator.convertSubgraphSources
            (CodebaseMermaidGenerator.hashModuleNames modules minify st0).namesHashMap modules) ++
        "\n" ++
        CodebaseMermaidGenerator.renderEdges
          (CodebaseMermaidGenerator.convertEdgeSources
            (CodebaseMermaidGenerator.hashModuleNames modules minify st0).namesHashMap modules) ++
        "\n" ++
        CodebaseMermaidGenerator.renderNodeStyles
          (CodebaseMermaidGenerator.hashModuleNames modules minify st0).nodeIdToModule ++
        "\n" ++
        CodebaseMermaidGenerator.renderEdgeStyles
          (CodebaseMermaidGenerator.hashModuleNames modules minify st0).nodeIdToModule
          (CodebaseMermaidGenerator.convertEdgeSources
            (CodebaseMermaidGenerator.hashModuleNames modules minify st0).namesHashMap modules) := by
  refine ⟨CodebaseMermaidGenerator.renderEdgeStyles_eq _ _,
    CodebaseMermaidGenerator.edgeStyleLines_length _ _ _, ?_, rfl⟩
  intro k hk
  simpa using CodebaseMermaidGenerator.edgeStyleLines_get_shape _ _ 0 k hk

/-- C2 witness: on the demo map the style block has exactly as many
directives as edges, and directive 0 addresses edge 0. -/
theorem c2_witness :
    (CodebaseMermaidGenerator.edgeStyleLines
        (CodebaseMermaidGenerator.hashModuleNames demoMods true GenState.init).nodeIdToModule 0
        (CodebaseMermaidGenerator.convertEdgeSources
          (CodebaseMermaidGenerator.hashModuleNames demoMods true GenState.init).namesHashMap demoMods)).length =
      (CodebaseMermaidGenerator.convertEdgeSources
        (CodebaseMermaidGenerator.hashModuleNames demoMods true GenState.init).namesHashMap demoMods).length :=
  (c2_edge_style_alignment demoMods true GenState.init).2.1

/-! ### C8: batch resilience -/

namespace CodebaseAnalyzer

theorem analyzeFile_isSome (fs : Fs) (workspaceRoot f : String) :
    (analyzeFile fs workspaceRoot f).isSome = (fs.contents f).isSome := by
  unfold analyzeFile
  cases fs.contents f <;> rfl

theorem analyzeFile_source {fs : Fs} {workspaceRoot f : String} {m : CodebaseModule}
    (h : analyzeFile fs workspaceRoot f = some m) : m.source = f := by
  unfold analyzeFile at h
  cases hc : fs.contents f with
  | none => simp only [hc] at h; cases h
  | some content =>
    simp only [hc] at h
    cases h
    rfl

theorem mapHas_foldl_buildStep (fs : Fs) (workspaceRoot : String) :
    ∀ (files : List String) (acc : List (String × CodebaseModule)) (q : String),
    mapHas (files.foldl (buildStep fs workspaceRoot) acc) q = true ↔
      (mapHas acc q = true ∨ ∃ f ∈ files, q = f ∧ (fs.contents f).isSome = true) := by
  intro files
  induction files with
  | nil => intro acc q; simp
  | cons f rest ih =>
    intro acc q
    rw [List.foldl_cons, ih]
    unfold buildStep
    cases ha : analyzeFile fs workspaceRoot f with
    | none =>
      simp only [ha]
      have hc : (fs.contents f).isSome = false := by
        rw [← analyzeFile_isSome fs workspaceRoot f, ha]; rfl
      constructor
      · rintro (h | ⟨g, hg, hq, hs⟩)
        · exact Or.inl h
        · exact Or.inr ⟨g, List.mem_cons_of_mem _ hg, hq, hs⟩
      · rintro (h | ⟨g, hg, hq, hs⟩)
        · exact Or.inl h
        · rcases List.mem_cons.1 hg with rfl | hg2
          · rw [hc] at hs; cases hs
          · exact Or.inr ⟨g, hg2, hq, hs⟩
    | some m =>
      simp only [ha]
      rw [analyzeFile_source ha]
      have hc : (fs.contents f).isSome = true := by
        rw [← analyzeFile_isSome fs workspaceRoot f, ha]; rfl
      rw [mapHas_mapSet]
      constructor
      · rintro ((rfl | h) | ⟨g, hg, hq, hs⟩)
        · exact Or.inr ⟨q, List.mem_cons_self _ _, rfl, hc⟩
        · exact Or.inl h
        · exact Or.inr ⟨g, List.mem_cons_of_mem _ hg, hq, hs⟩
      · rintro (h | ⟨g, hg, hq, hs⟩)
        · exact Or.inl (Or.inr h)
        · rcases List.mem_cons.1 hg with rfl | hg2
          · exact Or.inl (Or.inl hq)
          · exact Or.inr ⟨g, hg2, hq, hs⟩

theorem selectStep_error {fs : Fs} {workspaceRoot : String} (acc : List String)
    {p : String} (h : fs.statKind p = .error ()) :
    selectStep fs workspaceRoot acc p = .error () := by
  unfold selectStep
  rw [h]
  rfl

theorem foldlM_selectStep_error (fs : Fs) (workspaceRoot : String) :
    ∀ (sel : List String) (init : List String),
    (∃ p ∈ sel, fs.statKind p = .error ()) →
    sel.foldlM (selectStep fs workspaceRoot) init = .error () := by
  intro sel
  induction sel with
  | nil => rintro init ⟨p, hp, _⟩; exact absurd hp (List.not_mem_nil p)
  | cons a rest ih =>
    rintro init ⟨p, hp, herr⟩
    rw [List.foldlM_cons]
    cases hs : fs.statKind a with
    | error e =>
      cases e
      rw [selectStep_error init hs]
      rfl
    | ok k =>
      rcases List.mem_cons.1 hp with rfl | hp2
      · rw [hs] at herr; cases herr
      · unfold selectStep
        rw [hs]
        cases k <;> exact ih _ ⟨p, hp2, herr⟩

theorem getFilesFromPaths_error {fs : Fs} {workspaceRoot : String}
    {sel : List String} (h : ∃ p ∈ sel, fs.statKind p = .error ()) :
    getFilesFromPaths fs workspaceRoot sel = .error () := by
  unfold getFilesFromPaths
  rw [foldlM_selectStep_error fs workspaceRoot sel [] h]
  rfl

theorem walkEntries_append (dirPath : String) :
    ∀ (l1 l2 : List FsEntry),
    walkEntries dirPath (l1 ++ l2) = walkEntries dirPath l1 ++ walkEntries dirPath l2 := by
  intro l1
  induction l1 with
  | nil => intro l2; simp [walkEntries]
  | cons e es ih =>
    intro l2
    rw [List.cons_append]
    cases e <;> simp [walkEntries, ih, List.append_assoc]

theorem walkEntries_badDir (dirPath n : String) (l : List FsEntry) :
    walkEntries dirPath (FsEntry.badDir n :: l) = walkEntries dirPath l := by
  simp [walkEntries]

theorem analyzeCodebase_some (fs : Fs) (workspaceRoot : String) (sel : List String) :
    analyzeCodebase fs workspaceRoot (some sel) =
      (getFilesFromPaths fs workspaceRoot sel).bind
        (fun files => .ok (resolveDependencies (buildModules fs workspaceRoot files))) := rfl

end CodebaseAnalyzer

/-- C8 counterexample: the workspace holds a readable, analyzable file
`/ws/a.ts`, yet selecting it together with a path whose `stat` throws
aborts the whole analysis with an exception instead of skipping the bad
path — refuting the claim that a stat failure on an explicitly selected
path cannot abort the overall analysis. -/
theorem c8_counterexample :
    (fsStatFail.contents "/ws/a.ts").isSome = true ∧
    fsStatFail.statKind "/ws/missing" = .error () ∧
    CodebaseAnalyzer.analyzeCodebase fsStatFail "/ws"
      (some ["/ws/a.ts", "/ws/missing"]) = .error () := by
  refine ⟨by decide, rfl, ?_⟩
  rw [CodebaseAnalyzer.analyzeCodebase_some,
    CodebaseAnalyzer.getFilesFromPaths_error ⟨"/ws/missing", by simp, rfl⟩]
  rfl

/-- C8 (amended): no single-file read failure or directory-walk failure
aborts the overall analysis — without explicit paths `analyzeCodebase`
always succeeds, a module appears in the map exactly when its file was
discovered and its read succeeded (an unreadable file is omitted with no
partial module while the rest are analyzed), and a directory whose
`readdir` throws is skipped without affecting its siblings.  However, a
stat failure on an explicitly selected path propagates and aborts
`analyzeCodebase`. -/
theorem c8_batch_resilience :
    (∀ (fs : Fs) (workspaceRoot : String),
      ∃ mods, CodebaseAnalyzer.analyzeCodebase fs workspaceRoot none = .ok mods ∧
        ∀ q, mapHas mods q = true ↔
          (q ∈ CodebaseAnalyzer.getAllSupportedFiles fs workspaceRoot ∧
            (fs.contents q).isSome = true)) ∧
    (∀ (dirPath n : String) (pre post : List FsEntry),
      CodebaseAnalyzer.walkEntries dirPath (pre ++ FsEntry.badDir n :: post) =
        CodebaseAnalyzer.walkEntries dirPath pre ++
          CodebaseAnalyzer.walkEntries dirPath post) ∧
    (∀ (fs : Fs) (workspaceRoot : String) (sel : List String),
      (∃ p ∈ sel, fs.statKind p = .error ()) →
      CodebaseAnalyzer.analyzeCodebase fs workspaceRoot (some sel) = .error ()) := by
  refine ⟨?_, ?_, ?_⟩
  · intro fs workspaceRoot
    refine ⟨CodebaseAnalyzer.resolveDependencies
      (CodebaseAnalyzer.buildModules fs workspaceRoot
        (CodebaseAnalyzer.getAllSupportedFiles fs workspaceRoot)), rfl, ?_⟩
    intro q
    rw [CodebaseAnalyzer.mapHas_resolveDependencies]
    unfold CodebaseAnalyzer.buildModules
    rw [CodebaseAnalyzer.mapHas_foldl_buildStep]
    constructor
    · rintro (h | ⟨f, hf, rfl, hs⟩)
      · simp [mapHas, mapGet] at h
      · exact ⟨hf, hs⟩
    · rintro ⟨hq, hs⟩
      exact Or.inr ⟨q, hq, rfl, hs⟩
  · intro dirPath n pre post
    rw [CodebaseAnalyzer.walkEntries_append, CodebaseAnalyzer.walkEntries_badDir]
  · intro fs workspaceRoot sel h
    rw [CodebaseAnalyzer.analyzeCodebase_some,
      CodebaseAnalyzer.getFilesFromPaths_error h]
    rfl

/-- C8 witness: the amended theorem's abort clause applied to the
concrete filesystem whose `stat` throws on the selected path. -/
theorem c8_witness :
    CodebaseAnalyzer.analyzeCodebase fsStatFail "/ws" (some ["/ws/missing"]) = .error () :=
  c8_batch_resilience.2.2 fsStatFail "/ws" ["/ws/missing"]
    ⟨"/ws/missing", by simp, rfl⟩

/-! ### C4: characterization of the dependent-linking pass -/

theorem mapHas_eq_of_keysOf_eq {l1 l2 : List (String × α)}
    (h : keysOf l1 = keysOf l2) (q : String) : mapHas l1 q = mapHas l2 q := by
  by_cases hq : q ∈ keysOf l2
  · rw [(mapHas_iff_keys _ _).2 hq, (mapHas_iff_keys _ _).2 (h ▸ hq)]
  · have h1 : mapHas l1 q = false := by
      cases hh : mapHas l1 q
      · rfl
      · exact absurd (h ▸ (mapHas_iff_keys _ _).1 hh) hq
    have h2 : mapHas l2 q = false := by
      cases hh : mapHas l2 q
      · rfl
      · exact absurd ((mapHas_iff_keys _ _).1 hh) hq
    rw [h1, h2]

theorem mapGet_some_mem {l : List (String × α)} {q : String} {v : α}
    (h : mapGet l q = some v) : ∃ p ∈ l, p.1 = q ∧ p.2 = v := by
  unfold mapGet at h
  cases hf : l.find? (fun p => p.1 == q) with
  | none => rw [hf] at h; cases h
  | some p =>
    rw [hf] at h
    cases h
    have hmem := List.mem_of_find?_eq_some hf
    have hkey := List.find?_some hf
    exact ⟨p, hmem, by simpa [beq_iff_eq] using hkey, rfl⟩

namespace CodebaseAnalyzer

theorem addDependent_eq (acc : List (String × CodebaseModule)) (t s : String) :
    addDependent acc t s = acc.map (fun p =>
      (p.1, if p.1 == t then
              (if p.2.dependents.contains s then p.2
               else { p.2 with dependents := p.2.dependents ++ [s] })
            else p.2)) := by
  unfold addDependent
  apply List.map_congr_left
  intro p _
  by_cases h : p.1 == t
  · rw [if_pos h, if_pos h]
  · rw [if_neg h, if_neg h]

theorem mapGet_map_snd (g : (String × β) → β) (l : List (String × β)) (q : String) :
    mapGet (l.map (fun p => (p.1, g p))) q = (l.find? (fun p => p.1 == q)).map g := by
  induction l with
  | nil => rfl
  | cons p rest ih =>
    rw [List.map_cons]
    unfold mapGet
    rw [List.find?_cons, List.find?_cons]
    cases hpq : (p.1 == q) with
    | true => simp [hpq]
    | false =>
      simp only [hpq]
      exact ih

theorem mapGet_eq_find (l : List (String × β)) (q : String) :
    mapGet l q = (l.find? (fun p => p.1 == q)).map (fun p => p.2) := rfl

theorem dependentsAt_addDependent (acc : List (String × CodebaseModule))
    (t s q : String) :
    dependentsAt (addDependent acc t s) q =
      if q = t then (dependentsAt acc q).map (fun d => pushIfAbsent d s)
      else dependentsAt acc q := by
  unfold dependentsAt
  rw [addDependent_eq, mapGet_map_snd, mapGet_eq_find, Option.map_map, Option.map_map]
  cases hf : acc.find? (fun p => p.1 == q) with
  | none => simp
  | some p0 =>
    have hq : p0.1 = q := by simpa [beq_iff_eq] using List.find?_some hf
    by_cases hqt : q = t
    · rw [if_pos hqt]
      have hbt : (p0.1 == t) = true := by simp [beq_iff_eq, hq, hqt]
      simp only [Option.map_some, Function.comp_def]
      refine congrArg some ?_
      beta_reduce
      rw [if_pos hbt]
      unfold pushIfAbsent
      split <;> rfl
    · rw [if_neg hqt]
      have hbt : (p0.1 == t) = false := by
        rw [beq_eq_false_iff_ne, hq]
        exact hqt
      simp only [Option.map_some, Function.comp_def]
      refine congrArg some ?_
      beta_reduce
      rw [if_neg (by simp [hbt])]

theorem depStep_resolved_none {i : String × CodebaseDependency}
    (acc : List (String × CodebaseModule)) (h : i.2.resolved = none) :
    depStep acc i = acc := by
  unfold depStep
  rw [h]

theorem depStep_resolved_some {i : String × CodebaseDependency}
    (acc : List (String × CodebaseModule)) {r : String} (h : i.2.resolved = some r) :
    depStep acc i =
      (if r == "" then acc
       else if (mapGet acc r).isSome then addDependent acc r i.1 else acc) := by
  unfold depStep
  rw [h]

theorem contribFilter_resolved_none {sd : String × CodebaseDependency}
    (modules : List (String × CodebaseModule)) (q : String)
    (h : sd.2.resolved = none) : contribFilter modules q sd = none := by
  unfold contribFilter
  rw [h]

theorem contribFilter_resolved_some {sd : String × CodebaseDependency}
    (modules : List (String × CodebaseModule)) (q : String) {r : String}
    (h : sd.2.resolved = some r) :
    contribFilter modules q sd =
      (if r == "" then none
       else if mapHas modules r then (if r == q then some sd.1 else none)
       else none) := by
  unfold contribFilter
  rw [h]

theorem dependentsAt_depStep (acc : List (String × CodebaseModule))
    (i : String × CodebaseDependency) (q : String) :
    dependentsAt (depStep acc i) q =
      (match contribFilter acc q i with
       | some s => (dependentsAt acc q).map (fun d => pushIfAbsent d s)
       | none => dependentsAt acc q) := by
  cases hres : i.2.resolved with
  | none => rw [depStep_resolved_none acc hres, contribFilter_resolved_none acc q hres]
  | some r =>
    rw [depStep_resolved_some acc hres, contribFilter_resolved_some acc q hres]
    by_cases hr : (r == "")
    · rw [if_pos hr, if_pos hr]
    · rw [if_neg hr, if_neg hr]
      by_cases hh : mapHas acc r
      · have hh2 : (mapGet acc r).isSome = true := hh
        rw [if_pos hh2, if_pos hh, dependentsAt_addDependent]
        by_cases hrq : (r == q)
        · have hq : q = r := (by simpa [beq_iff_eq] using hrq : r = q).symm
          rw [if_pos hrq, if_pos hq]
        · have hq : ¬ q = r := fun h => hrq (by simp [beq_iff_eq, h])
          rw [if_neg hrq, if_neg hq]
      · have hh2 : (mapGet acc r).isSome = false := by
          cases hmg : (mapGet acc r).isSome
          · rfl
          · exact absurd hmg (by simpa [mapHas] using hh)
        rw [if_neg (by simp [hh2]), if_neg hh]

theorem contribFilter_keys_congr {acc1 acc2 : List (String × CodebaseModule)}
    (h : keysOf acc1 = keysOf acc2) (q : String) :
    contribFilter acc1 q = contribFilter acc2 q := by
  funext sd
  cases hres : sd.2.resolved with
  | none =>
    rw [contribFilter_resolved_none acc1 q hres, contribFilter_resolved_none acc2 q hres]
  | some r =>
    rw [contribFilter_resolved_some acc1 q hres, contribFilter_resolved_some acc2 q hres,
      mapHas_eq_of_keysOf_eq h]

theorem dependentsAt_foldl_depStep :
    ∀ (l : List (String × CodebaseDependency)) (acc : List (String × CodebaseModule))
      (q : String),
    dependentsAt (l.foldl depStep acc) q =
      (dependentsAt acc q).map
        (fun d0 => (l.filterMap (contribFilter acc q)).foldl pushIfAbsent d0) := by
  intro l
  induction l with
  | nil =>
    intro acc q
    rw [List.foldl_nil, List.filterMap_nil]
    unfold dependentsAt
    cases mapGet acc q <;> rfl
  | cons i rest ih =>
    intro acc q
    rw [List.foldl_cons, List.filterMap_cons, ih,
      contribFilter_keys_congr (keysOf_depStep acc i) q, dependentsAt_depStep]
    cases hc : contribFilter acc q i with
    | none => rfl
    | some s =>
      unfold dependentsAt
      cases mapGet acc q with
      | none => rfl
      | some v => rfl

theorem dependentsAt_resolveDependencies (modules : List (String × CodebaseModule))
    (q : String) :
    dependentsAt (resolveDependencies modules) q =
      (dependentsAt modules q).map
        (fun d0 => (contribsTo modules q).foldl pushIfAbsent d0) := by
  rw [resolveDependencies_eq_instr, dependentsAt_foldl_depStep]
  rfl

theorem mem_pushIfAbsent {l : List String} {s x : String}
    (h : x ∈ pushIfAbsent l s) : x ∈ l ∨ x = s := by
  unfold pushIfAbsent at h
  split at h
  · exact Or.inl h
  · rcases List.mem_append.1 h with h | h
    · exact Or.inl h
    · exact Or.inr (List.mem_singleton.1 h)

theorem mem_foldl_pushIfAbsent :
    ∀ {l : List String} {d0 : List String} {x : String},
    x ∈ l.foldl pushIfAbsent d0 → x ∈ d0 ∨ x ∈ l := by
  intro l
  induction l with
  | nil => intro d0 x h; exact Or.inl h
  | cons s rest ih =>
    intro d0 x h
    rcases ih (List.foldl_cons .. ▸ h) with h2 | h2
    · rcases mem_pushIfAbsent h2 with h3 | h3
      · exact Or.inl h3
      · exact Or.inr (by simp [h3])
    · exact Or.inr (List.mem_cons_of_mem _ h2)

theorem nodup_pushIfAbsent {l : List String} (s : String) (h : l.Nodup) :
    (pushIfAbsent l s).Nodup := by
  unfold pushIfAbsent
  split
  · exact h
  · rename_i hc
    refine List.Nodup.append h (List.nodup_singleton s) ?_
    intro a ha hb
    have hab : a = s := List.mem_singleton.1 hb
    subst hab
    exact hc (List.elem_eq_true_of_mem ha)

theorem nodup_foldl_pushIfAbsent :
    ∀ (l : List String) {d0 : List String}, d0.Nodup →
    (l.foldl pushIfAbsent d0).Nodup := by
  intro l
  induction l with
  | nil => intro d0 h; exact h
  | cons s rest ih =>
    intro d0 h
    rw [List.foldl_cons]
    exact ih (nodup_pushIfAbsent s h)

theorem contribsTo_mem {modules : List (String × CodebaseModule)} {q s : String}
    (h : s ∈ contribsTo modules q) : s ∈ keysOf modules := by
  rcases List.mem_filterMap.1 h with ⟨sd, hsd, hf⟩
  have hkey : sd.1 = s := by
    cases hres : sd.2.resolved with
    | none => rw [contribFilter_resolved_none modules q hres] at hf; cases hf
    | some r =>
      rw [contribFilter_resolved_some modules q hres] at hf
      by_cases hr : (r == "")
      · rw [if_pos hr] at hf; cases hf
      · rw [if_neg hr] at hf
        by_cases hh : mapHas modules r
        · rw [if_pos hh] at hf
          by_cases hrq : (r == q)
          · rw [if_pos hrq] at hf; cases hf; rfl
          · rw [if_neg hrq] at hf; cases hf
        · rw [if_neg hh] at hf; cases hf
  rcases List.mem_flatMap.1 hsd with ⟨p, hp, hin⟩
  rcases List.mem_map.1 hin with ⟨d, _, hd⟩
  have hps : sd.1 = p.1 := by rw [← hd]
  exact hkey ▸ hps ▸ List.mem_map_of_mem Prod.fst hp

end CodebaseAnalyzer

/-! ### C4: removal of a dependency with an out-of-map target -/

namespace CodebaseAnalyzer

theorem keysOf_removeDepOnce (modules : List (String × CodebaseModule))
    (k : String) (d : CodebaseDependency) :
    keysOf (removeDepOnce modules k d) = keysOf modules := by
  unfold keysOf removeDepOnce
  rw [List.map_map]
  apply List.map_congr_left
  intro p _
  simp only [Function.comp_apply]
  split <;> rfl

theorem dependentsAt_removeDepOnce (modules : List (String × CodebaseModule))
    (k : String) (d : CodebaseDependency) (q : String) :
    dependentsAt (removeDepOnce modules k d) q = dependentsAt modules q := by
  have heq : removeDepOnce modules k d = modules.map (fun p =>
      (p.1, if p.1 == k then { p.2 with dependencies := p.2.dependencies.erase d }
            else p.2)) := by
    unfold removeDepOnce
    apply List.map_congr_left
    intro p _
    by_cases h : p.1 == k
    · rw [if_pos h, if_pos h]
    · rw [if_neg h, if_neg h]
  unfold dependentsAt
  rw [heq, mapGet_map_snd, mapGet_eq_find, Option.map_map, Option.map_map]
  cases hf : modules.find? (fun p => p.1 == q) with
  | none => rfl
  | some p0 =>
    simp only [Option.map_some, Function.comp_def]
    refine congrArg some ?_
    beta_reduce
    split <;> rfl

theorem filterMap_erase_of_none {α β : Type _} [BEq α] [LawfulBEq α]
    (f : α → Option β) (d : α) (hd : f d = none) :
    ∀ l : List α, (l.erase d).filterMap f = l.filterMap f := by
  intro l
  induction l with
  | nil => rfl
  | cons a l2 ih =>
    rw [List.erase_cons]
    by_cases h : a == d
    · have had : a = d := eq_of_beq h
      subst had
      rw [if_pos h, List.filterMap_cons, hd]
    · rw [if_neg h, List.filterMap_cons, List.filterMap_cons]
      cases hfa : f a <;> simp [hfa, ih]

theorem contribsTo_removeDepOnce (modules : List (String × CodebaseModule))
    (k q r : String) (d : CodebaseDependency)
    (hres : d.resolved = some r) (hr : mapHas modules r = false) :
    contribsTo (removeDepOnce modules k d) q = contribsTo modules q := by
  have hnone : contribFilter modules q (k, d) = none := by
    rw [@contribFilter_resolved_some (k, d) modules q r hres]
    by_cases hre : r == ""
    · rw [if_pos hre]
    · rw [if_neg hre, if_neg (by simp [hr])]
  have hdc : ∀ (q0 : String × CodebaseModule) (qs : List (String × CodebaseModule)),
      depInstrs (q0 :: qs) =
        q0.2.dependencies.map (fun d2 => (q0.1, d2)) ++ depInstrs qs := by
    intro q0 qs
    unfold depInstrs
    rw [List.flatMap_cons]
  unfold contribsTo
  rw [contribFilter_keys_congr (keysOf_removeDepOnce modules k d) q]
  have haux : ∀ ms : List (String × CodebaseModule),
      List.filterMap (contribFilter modules q) (depInstrs (removeDepOnce ms k d)) =
      List.filterMap (contribFilter modules q) (depInstrs ms) := by
    intro ms
    induction ms with
    | nil => rfl
    | cons p ps ih =>
      have hcons : removeDepOnce (p :: ps) k d =
          (if p.1 == k then
            (p.1, { p.2 with dependencies := p.2.dependencies.erase d }) else p) ::
            removeDepOnce ps k d := by
        unfold removeDepOnce
        rw [List.map_cons]
      by_cases hpk : p.1 == k
      · rw [hcons, if_pos hpk, hdc, hdc, List.filterMap_append,
          List.filterMap_append, ih]
        congr 1
        show ((p.2.dependencies.erase d).map (fun d2 => (p.1, d2))).filterMap
            (contribFilter modules q) =
          (p.2.dependencies.map (fun d2 => (p.1, d2))).filterMap
            (contribFilter modules q)
        rw [List.filterMap_map, List.filterMap_map]
        have hk : p.1 = k := by simpa using hpk
        exact filterMap_erase_of_none _ d (by rw [hk]; exact hnone) _
      · rw [hcons, if_neg hpk, hdc, hdc, List.filterMap_append,
          List.filterMap_append, ih]
  exact haux modules

theorem edgeCandidate_resolved_some (names : List (String × String))
    (f ft : String) {d : CodebaseDependency} {r : String}
    (h : d.resolved = some r) :
    CodebaseMermaidGenerator.edgeCandidate names f ft d =
      (if r = "" then none
       else if d.valid then
         (match mapGet names r with
          | none => none
          | some toNode =>
            if toNode = "" then none
            else some { fromNode := f, fromText := ft, toNode := toNode,
                        toText := pathBasename r })
       else none) := by
  unfold CodebaseMermaidGenerator.edgeCandidate
  rw [h]

theorem edgeCandidate_none_of_unregistered (names : List (String × String))
    (f ft : String) {d : CodebaseDependency} {r : String}
    (hres : d.resolved = some r) (hget : mapGet names r = none) :
    CodebaseMermaidGenerator.edgeCandidate names f ft d = none := by
  rw [edgeCandidate_resolved_some names f ft hres]
  by_cases hre : r = ""
  · rw [if_pos hre]
  · rw [if_neg hre]
    by_cases hv : d.valid
    · rw [if_pos hv, hget]
    · rw [if_neg hv]

theorem rawEdges_removeDepOnce (names : List (String × String))
    (modules : List (String × CodebaseModule)) (k : String)
    (d : CodebaseDependency) {r : String}
    (hres : d.resolved = some r) (hget : mapGet names r = none) :
    CodebaseMermaidGenerator.rawEdges names (removeDepOnce modules k d) =
      CodebaseMermaidGenerator.rawEdges names modules := by
  have hre : ∀ (q0 : String × CodebaseModule) (qs : List (String × CodebaseModule)),
      CodebaseMermaidGenerator.rawEdges names (q0 :: qs) =
        (match mapGet names q0.1 with
         | none => []
         | some fromNode =>
           if fromNode = "" then []
           else q0.2.dependencies.filterMap
             (CodebaseMermaidGenerator.edgeCandidate names fromNode
               (pathBasename q0.2.relativePath))) ++
          CodebaseMermaidGenerator.rawEdges names qs := by
    intro q0 qs
    unfold CodebaseMermaidGenerator.rawEdges
    rw [List.flatMap_cons]
  induction modules with
  | nil => rfl
  | cons p ps ih =>
    have hcons : removeDepOnce (p :: ps) k d =
        (if p.1 == k then
          (p.1, { p.2 with dependencies := p.2.dependencies.erase d }) else p) ::
          removeDepOnce ps k d := by
      unfold removeDepOnce
      rw [List.map_cons]
    by_cases hpk : p.1 == k
    · rw [hcons, if_pos hpk, hre, hre, ih]
      congr 1
      show (match mapGet names p.1 with
         | none => []
         | some fromNode =>
           if fromNode = "" then []
           else (p.2.dependencies.erase d).filterMap
             (CodebaseMermaidGenerator.edgeCandidate names fromNode
               (pathBasename p.2.relativePath))) =
        (match mapGet names p.1 with
         | none => []
         | some fromNode =>
           if fromNode = "" then []
           else p.2.dependencies.filterMap
             (CodebaseMermaidGenerator.edgeCandidate names fromNode
               (pathBasename p.2.relativePath)))
      cases hm : mapGet names p.1 with
      | none => rfl
      | some f0 =>
        show (if f0 = "" then []
            else (p.2.dependencies.erase d).filterMap
              (CodebaseMermaidGenerator.edgeCandidate names f0
                (pathBasename p.2.relativePath))) =
          (if f0 = "" then []
            else p.2.dependencies.filterMap
              (CodebaseMermaidGenerator.edgeCandidate names f0
                (pathBasename p.2.relativePath)))
        by_cases hf0 : f0 = ""
        · rw [if_pos hf0, if_pos hf0]
        · rw [if_neg hf0, if_neg hf0]
          exact filterMap_erase_of_none _ d
            (edgeCandidate_none_of_unregistered names f0 _ hres hget) _
    · rw [hcons, if_neg hpk, hre, hre, ih]

theorem convertEdgeSources_removeDepOnce (names : List (String × String))
    (modules : List (String × CodebaseModule)) (k : String)
    (d : CodebaseDependency) {r : String}
    (hres : d.resolved = some r) (hget : mapGet names r = none) :
    CodebaseMermaidGenerator.convertEdgeSources names (removeDepOnce modules k d) =
      CodebaseMermaidGenerator.convertEdgeSources names modules := by
  rw [CodebaseMermaidGenerator.convertEdgeSources_eq_dedup,
    CodebaseMermaidGenerator.convertEdgeSources_eq_dedup,
    rawEdges_removeDepOnce names modules k d hres hget]

end CodebaseAnalyzer

/-! ### C4: which strings ever receive a node ID -/

theorem splitOnChar_ne_nil (sep : Char) : ∀ cs : List Char, splitOnChar sep cs ≠ [] := by
  intro cs
  induction cs with
  | nil => simp [splitOnChar]
  | cons c rest ih =>
    unfold splitOnChar
    split
    · rename_i heq
      exact absurd heq ih
    · split <;> simp

theorem splitOnChar_no_sep (sep : Char) :
    ∀ (cs : List Char) (l : List Char), l ∈ splitOnChar sep cs → sep ∉ l := by
  intro cs
  induction cs with
  | nil =>
    intro l hl
    simp [splitOnChar] at hl
    subst hl
    simp
  | cons c rest ih =>
    intro l hl
    unfold splitOnChar at hl
    cases h : splitOnChar sep rest with
    | nil => exact absurd h (splitOnChar_ne_nil sep rest)
    | cons l0 ls =>
      simp only [h] at hl
      by_cases hc : c = sep
      · rw [if_pos hc] at hl
        rcases List.mem_cons.1 hl with rfl | hl2
        · simp
        · exact ih l (by rw [h]; exact hl2)
      · rw [if_neg hc] at hl
        rcases List.mem_cons.1 hl with rfl | hl2
        · intro hmem
          rcases List.mem_cons.1 hmem with heq | hmem2
          · exact hc heq.symm
          · exact ih l0 (by rw [h]; exact List.mem_cons_self l0 ls) hmem2
        · exact ih l (by rw [h]; exact List.mem_cons_of_mem l0 hl2)

theorem segs_no_slash {s seg : String}
    (h : seg ∈ (splitSep s).filter (fun q => q ≠ "")) :
    seg ≠ "" ∧ '/' ∉ seg.data := by
  rcases List.mem_filter.1 h with ⟨hmem, hne⟩
  rcases List.mem_map.1 hmem with ⟨l, hl, rfl⟩
  refine ⟨by simpa using hne, ?_⟩
  simpa using splitOnChar_no_sep '/' s.data l hl

theorem joinSep_not_beginsWith {h0 : String} (rest : List String) (hne : h0 ≠ "")
    (hns : '/' ∉ h0.data) : beginsWith '/' (joinSep (h0 :: rest)) = false := by
  have hdata : ∃ c cs, h0.data = c :: cs ∧ c ≠ '/' := by
    cases hd : h0.data with
    | nil =>
      exact absurd (by cases h0 with | mk l => simp at hd; simp [hd]) hne
    | cons c cs =>
      refine ⟨c, cs, rfl, fun hcc => hns ?_⟩
      rw [hd, hcc]
      exact List.mem_cons_self _ _
  rcases hdata with ⟨c, cs, hd, hc⟩
  cases rest with
  | nil =>
    show beginsWith '/' h0 = false
    unfold beginsWith
    simp only [hd]
    simp [hc]
  | cons b bs =>
    show beginsWith '/' (h0 ++ "/" ++ joinSep (b :: bs)) = false
    unfold beginsWith
    rw [String.data_append, String.data_append, hd]
    simp [hc]

theorem take_segs_not_beginsWith (s : String) (i : Nat)
    (hi : i < ((splitSep s).filter (fun q => q ≠ "")).length) :
    beginsWith '/'
      (joinSep (((splitSep s).filter (fun q => q ≠ "")).take (i + 1))) = false := by
  cases hsegs : (splitSep s).filter (fun q => q ≠ "") with
  | nil => rw [hsegs] at hi; exact absurd hi (by simp)
  | cons s0 srest =>
    rw [List.take_succ_cons]
    have hprops := @segs_no_slash s s0 (by
      rw [hsegs]; exact List.mem_cons_self s0 srest)
    exact joinSep_not_beginsWith _ hprops.1 hprops.2

theorem mem_addUnique {l : List String} {x y : String}
    (h : x ∈ CodebaseMermaidGenerator.addUnique l y) : x ∈ l ∨ x = y := by
  unfold CodebaseMermaidGenerator.addUnique at h
  split at h
  · exact Or.inl h
  · rcases List.mem_append.1 h with h | h
    · exact Or.inl h
    · exact Or.inr (List.mem_singleton.1 h)

theorem mem_foldl_addUnique {β : Type _} (g : β → String) :
    ∀ (il : List β) (acc : List String) (x : String),
    x ∈ il.foldl (fun acc i => CodebaseMermaidGenerator.addUnique acc (g i)) acc →
    x ∈ acc ∨ ∃ i ∈ il, x = g i := by
  intro il
  induction il with
  | nil => intro acc x h; exact Or.inl h
  | cons i is ih =>
    intro acc x h
    rw [List.foldl_cons] at h
    rcases ih _ x h with h2 | ⟨j, hj, hx⟩
    · rcases mem_addUnique h2 with h3 | h3
      · exact Or.inl h3
      · exact Or.inr ⟨i, List.mem_cons_self i is, h3⟩
    · exact Or.inr ⟨j, List.mem_cons_of_mem i hj, hx⟩

theorem allPathsOf_not_beginsWith {M : List (String × CodebaseModule)}
    (hrel : ∀ p ∈ M, beginsWith '/' p.2.relativePath = false) :
    ∀ a ∈ CodebaseMermaidGenerator.allPathsOf M, beginsWith '/' a = false := by
  unfold CodebaseMermaidGenerator.allPathsOf
  suffices haux : ∀ (ms : List (String × CodebaseModule)) (acc : List String),
      (∀ x ∈ acc, beginsWith '/' x = false) →
      (∀ p ∈ ms, beginsWith '/' p.2.relativePath = false) →
      ∀ a ∈ ms.foldl (fun acc p =>
        CodebaseMermaidGenerator.addUnique
          ((List.range ((splitSep p.2.relativePath).filter (fun q => q ≠ "")).length).foldl
            (fun acc i => CodebaseMermaidGenerator.addUnique acc
              (joinSep (((splitSep p.2.relativePath).filter (fun q => q ≠ "")).take (i + 1))))
            acc)
          p.2.relativePath) acc, beginsWith '/' a = false by
    intro a ha
    exact haux M [] (by simp) hrel a ha
  intro ms
  induction ms with
  | nil => intro acc hacc _ a ha; exact hacc a ha
  | cons p ps ih =>
    intro acc hacc hms a ha
    rw [List.foldl_cons] at ha
    refine ih _ ?_ (fun p2 hp2 => hms p2 (List.mem_cons_of_mem p hp2)) a ha
    intro x hx
    rcases mem_addUnique hx with h2 | h2
    · rcases mem_foldl_addUnique _ _ _ _ h2 with h3 | ⟨i, hi, hxi⟩
      · exact hacc x h3
      · rw [hxi]
        exact take_segs_not_beginsWith p.2.relativePath i (List.mem_range.1 hi)
    · rw [h2]
      exact hms p (List.mem_cons_self p ps)

theorem mem_keys_mapSet {l : List (String × α)} {k : String} {v : α} {q : String}
    (h : q ∈ keysOf (mapSet l k v)) : q = k ∨ q ∈ keysOf l := by
  rcases (mapHas_mapSet l k v q).1 ((mapHas_iff_keys _ _).2 h) with h2 | h2
  · exact Or.inl h2
  · exact Or.inr ((mapHas_iff_keys _ _).1 h2)

theorem mem_keys_assignIds {minify : Bool} {paths : List String}
    {names : List (String × String)} {q : String}
    (h : q ∈ keysOf (CodebaseMermaidGenerator.assignIds minify paths names)) :
    q ∈ keysOf names ∨ q ∈ paths := by
  unfold CodebaseMermaidGenerator.assignIds at h
  suffices haux : ∀ (ps : List String) (st : List (String × String) × Nat),
      q ∈ keysOf ((ps.foldl (fun st relativePath =>
        if mapHas st.1 relativePath then st
        else if minify then
          (mapSet st.1 relativePath ("N" ++ CodebaseMermaidGenerator.natToBase36 st.2), st.2 + 1)
        else
          (mapSet st.1 relativePath
            (CodebaseMermaidGenerator.hashToReadableNodeName relativePath), st.2)) st).1) →
      q ∈ keysOf st.1 ∨ q ∈ ps by
    exact haux paths (names, 0) h
  intro ps
  induction ps with
  | nil => intro st h2; exact Or.inl h2
  | cons a as ih =>
    intro st h2
    rw [List.foldl_cons] at h2
    rcases ih _ h2 with h3 | h3
    · by_cases hhas : mapHas st.1 a
      · rw [if_pos hhas] at h3
        exact Or.inl h3
      · rw [if_neg hhas] at h3
        by_cases hmin : minify
        · rw [if_pos hmin] at h3
          rcases mem_keys_mapSet h3 with h4 | h4
          · exact Or.inr (by simp [h4])
          · exact Or.inl h4
        · rw [if_neg hmin] at h3
          rcases mem_keys_mapSet h3 with h4 | h4
          · exact Or.inr (by simp [h4])
          · exact Or.inl h4
    · exact Or.inr (List.mem_cons_of_mem a h3)

theorem mem_keys_register {q : String} :
    ∀ (modules : List (String × CodebaseModule)) (st : GenState),
    q ∈ keysOf (CodebaseMermaidGenerator.registerAbsolutePaths modules st).namesHashMap →
    q ∈ keysOf st.namesHashMap ∨ q ∈ keysOf modules := by
  intro modules
  induction modules with
  | nil => intro st h; exact Or.inl h
  | cons p ps ih =>
    intro st h
    unfold CodebaseMermaidGenerator.registerAbsolutePaths at h
    rw [List.foldl_cons] at h
    cases hg : mapGet st.namesHashMap p.2.relativePath with
    | none =>
      simp only [hg] at h
      rcases ih _ h with h2 | h2
      · exact Or.inl h2
      · refine Or.inr ?_
        unfold keysOf at h2 ⊢
        rw [List.map_cons]
        exact List.mem_cons_of_mem _ h2
    | some hid =>
      simp only [hg] at h
      rcases ih _ h with h2 | h2
      · rcases mem_keys_mapSet h2 with h3 | h3
        · exact Or.inr (by simp [keysOf, h3])
        · exact Or.inl h3
      · refine Or.inr ?_
        unfold keysOf at h2 ⊢
        rw [List.map_cons]
        exact List.mem_cons_of_mem _ h2

theorem mem_keys_hashModuleNames {M : List (String × CodebaseModule)}
    {minify : Bool} {q : String}
    (h : q ∈ keysOf (CodebaseMermaidGenerator.hashModuleNames M minify GenState.init).namesHashMap) :
    q ∈ CodebaseMermaidGenerator.allPathsOf M ∨ q ∈ keysOf M := by
  unfold CodebaseMermaidGenerator.hashModuleNames at h
  rcases mem_keys_register _ _ h with h2 | h2
  · rcases mem_keys_assignIds h2 with h3 | h3
    · simp [GenState.init, keysOf] at h3
    · exact Or.inl h3
  · exact Or.inr h2

theorem names_unregistered {M : List (String × CodebaseModule)} {minify : Bool}
    {r : String} (hr : beginsWith '/' r = true) (hkey : mapHas M r = false)
    (hrel : ∀ p ∈ M, beginsWith '/' p.2.relativePath = false) :
    mapGet (CodebaseMermaidGenerator.hashModuleNames M minify GenState.init).namesHashMap r = none := by
  cases hg : mapGet (CodebaseMermaidGenerator.hashModuleNames M minify GenState.init).namesHashMap r with
  | none => rfl
  | some v =>
    have hmem := mapGet_mem_keys hg
    rcases mem_keys_hashModuleNames hmem with h2 | h2
    · have := allPathsOf_not_beginsWith hrel r h2
      rw [hr] at this
      cases this
    · rw [(mapHas_iff_keys M r).2 h2] at hkey
      cases hkey

/-- C4 (no dangling backlinks): after the dependent-linking pass,
every entry of every module's `dependents` list is itself a key of the
module map and appears exactly once; and a valid dependency whose
resolved target is not a key of the map contributes nothing: removing
it changes no `dependents` list and no rendered edge (its target never
receives a node ID, so the renderer skips it). -/
theorem c4_no_dangling_backlinks
    (modules : List (String × CodebaseModule)) (minify : Bool)
    (k r : String) (d : CodebaseDependency)
    (hd0 : ∀ p ∈ modules, p.2.dependents = ([] : List String))
    (hrel : ∀ p ∈ modules, beginsWith '/' p.2.relativePath = false)
    (hval : d.valid = true)
    (hres : d.resolved = some r)
    (hr : mapHas modules r = false)
    (hrabs : beginsWith '/' r = true) :
    (∀ q l, CodebaseAnalyzer.dependentsAt
        (CodebaseAnalyzer.resolveDependencies modules) q = some l →
      (∀ s ∈ l, mapHas (CodebaseAnalyzer.resolveDependencies modules) s = true) ∧
        l.Nodup)
    ∧ (∀ q, CodebaseAnalyzer.dependentsAt
          (CodebaseAnalyzer.resolveDependencies
            (CodebaseAnalyzer.removeDepOnce modules k d)) q =
        CodebaseAnalyzer.dependentsAt
          (CodebaseAnalyzer.resolveDependencies modules) q)
    ∧ CodebaseMermaidGenerator.convertEdgeSources
        (CodebaseMermaidGenerator.hashModuleNames modules minify GenState.init).namesHashMap
        (CodebaseAnalyzer.removeDepOnce modules k d) =
      CodebaseMermaidGenerator.convertEdgeSources
        (CodebaseMermaidGenerator.hashModuleNames modules minify GenState.init).namesHashMap
        modules := by
  refine ⟨?_, ?_, ?_⟩
  · intro q l hql
    rw [CodebaseAnalyzer.dependentsAt_resolveDependencies] at hql
    cases hq0 : CodebaseAnalyzer.dependentsAt modules q with
    | none => rw [hq0] at hql; cases hql
    | some d0 =>
      rw [hq0] at hql
      simp only [Option.map] at hql
      injection hql with hql2
      have hd0nil : d0 = [] := by
        unfold CodebaseAnalyzer.dependentsAt at hq0
        cases hm : mapGet modules q with
        | none => rw [hm] at hq0; cases hq0
        | some m =>
          rw [hm] at hq0
          simp only [Option.map] at hq0
          injection hq0 with hq2
          rcases mapGet_some_mem hm with ⟨p, hp, hp1, hp2⟩
          rw [← hq2, ← hp2]
          exact hd0 p hp
      subst hd0nil
      have hl : l = (CodebaseAnalyzer.contribsTo modules q).foldl
          pushIfAbsent [] := hql2.symm
      constructor
      · intro s hs
        rcases CodebaseAnalyzer.mem_foldl_pushIfAbsent (hl ▸ hs) with h2 | h2
        · exact absurd h2 (List.not_mem_nil s)
        · rw [CodebaseAnalyzer.mapHas_resolveDependencies]
          exact (mapHas_iff_keys _ _).2 (CodebaseAnalyzer.contribsTo_mem h2)
      · rw [hl]
        exact CodebaseAnalyzer.nodup_foldl_pushIfAbsent _ List.nodup_nil
  · intro q
    rw [CodebaseAnalyzer.dependentsAt_resolveDependencies,
      CodebaseAnalyzer.dependentsAt_resolveDependencies,
      CodebaseAnalyzer.dependentsAt_removeDepOnce,
      CodebaseAnalyzer.contribsTo_removeDepOnce modules k q r d hres hr]
  · exact CodebaseAnalyzer.convertEdgeSources_removeDepOnce _ modules k d hres
      (names_unregistered hrabs hr hrel)

/-- C4 witness: in the demo map, removing the valid dependency
`depGone` (whose resolved target `/ws/gone.ts` is not a key) leaves
the rendered edge list unchanged. -/
theorem c4_witness :
    CodebaseMermaidGenerator.convertEdgeSources
      (CodebaseMermaidGenerator.hashModuleNames demoMods true GenState.init).namesHashMap
      (CodebaseAnalyzer.removeDepOnce demoMods "/ws/a.ts" depGone) =
    CodebaseMermaidGenerator.convertEdgeSources
      (CodebaseMermaidGenerator.hashModuleNames demoMods true GenState.init).namesHashMap
      demoMods :=
  (c4_no_dangling_backlinks demoMods true "/ws/a.ts" "/ws/gone.ts" depGone
    (by decide) (by decide) rfl rfl (by decide) (by decide)).2.2

/-! ### C7: association-list extensionality and write-replay lemmas -/

theorem keysOf_cons (p : String × α) (l : List (String × α)) :
    keysOf (p :: l) = p.1 :: keysOf l := rfl

theorem mapGet_cons_self (k : String) (v : α) (t : List (String × α)) :
    mapGet ((k, v) :: t) k = some v := by
  unfold mapGet
  rw [List.find?_cons_of_pos _ (by simp)]
  rfl

theorem mapGet_cons_ne (k0 : String) (v0 : α) (t : List (String × α))
    (q : String) (h : k0 ≠ q) : mapGet ((k0, v0) :: t) q = mapGet t q := by
  unfold mapGet
  rw [List.find?_cons_of_neg _ (by simp [h])]

theorem mapGet_mapSet_self (l : List (String × α)) (k : String) (v : α) :
    mapGet (mapSet l k v) k = some v := by
  induction l with
  | nil => exact mapGet_cons_self k v []
  | cons p t ih =>
    rw [show p = (p.1, p.2) from rfl]
    unfold mapSet
    by_cases hp : p.1 == k
    · rw [if_pos hp]
      have hk : p.1 = k := by simpa using hp
      rw [hk]
      exact mapGet_cons_self k v t
    · rw [if_neg hp]
      have hne : p.1 ≠ k := by simpa using hp
      rw [mapGet_cons_ne p.1 p.2 _ k hne]
      exact ih

theorem mapGet_none_of_not_mem_keys {l : List (String × α)} {q : String}
    (h : q ∉ keysOf l) : mapGet l q = none := by
  cases hg : mapGet l q with
  | none => rfl
  | some v => exact absurd (mapGet_mem_keys hg) h

theorem keysOf_mapSet_of_has (l : List (String × α)) (k : String) (v : α)
    (h : mapHas l k = true) : keysOf (mapSet l k v) = keysOf l := by
  induction l with
  | nil => simp [mapHas, mapGet] at h
  | cons p t ih =>
    rw [show p = (p.1, p.2) from rfl] at h ⊢
    unfold mapSet
    by_cases hp : p.1 == k
    · rw [if_pos hp, keysOf_cons, keysOf_cons]
    · rw [if_neg hp, keysOf_cons, keysOf_cons]
      rw [mapHas_cons] at h
      have hfalse : (p.1 == k) = false := by simpa using hp
      rw [hfalse, Bool.false_or] at h
      rw [ih h]

theorem keysOf_mapSet_of_not_has (l : List (String × α)) (k : String) (v : α)
    (h : mapHas l k = false) : keysOf (mapSet l k v) = keysOf l ++ [k] := by
  induction l with
  | nil => rfl
  | cons p t ih =>
    rw [show p = (p.1, p.2) from rfl] at h ⊢
    unfold mapSet
    by_cases hp : p.1 == k
    · rw [mapHas_cons, hp, Bool.true_or] at h
      cases h
    · rw [if_neg hp, keysOf_cons, keysOf_cons]
      rw [mapHas_cons] at h
      have hfalse : (p.1 == k) = false := by simpa using hp
      rw [hfalse, Bool.false_or] at h
      rw [ih h, List.cons_append]

theorem nodupKeys_mapSet (l : List (String × α)) (k : String) (v : α)
    (h : (keysOf l).Nodup) : (keysOf (mapSet l k v)).Nodup := by
  cases hh : mapHas l k
  · rw [keysOf_mapSet_of_not_has l k v hh]
    refine List.Nodup.append h (List.nodup_singleton k) ?_
    intro a ha hb
    have hak : a = k := List.mem_singleton.1 hb
    subst hak
    exact absurd ((mapHas_iff_keys l a).2 ha) (by simp [hh])
  · rw [keysOf_mapSet_of_has l k v hh]
    exact h

theorem mapGet_ext : ∀ (l1 l2 : List (String × α)), keysOf l1 = keysOf l2 →
    (keysOf l1).Nodup → (∀ q, mapGet l1 q = mapGet l2 q) → l1 = l2 := by
  intro l1
  induction l1 with
  | nil =>
    intro l2 hk _ _
    cases l2 with
    | nil => rfl
    | cons p2 t2 => simp [keysOf] at hk
  | cons p1 t1 ih =>
    intro l2 hk hnd hg
    cases l2 with
    | nil => simp [keysOf] at hk
    | cons p2 t2 =>
      rw [keysOf_cons, keysOf_cons] at hk
      injection hk with hk1 hk2
      have hnd1 : p1.1 ∉ keysOf t1 := by
        rw [keysOf_cons] at hnd
        exact (List.nodup_cons.1 hnd).1
      have hv : p1.2 = p2.2 := by
        have h1 : mapGet (p1 :: t1) p1.1 = some p1.2 :=
          mapGet_cons_self p1.1 p1.2 t1
        have h2 : mapGet (p2 :: t2) p1.1 = some p2.2 := by
          rw [hk1]
          exact mapGet_cons_self p2.1 p2.2 t2
        have hq := hg p1.1
        rw [h1, h2] at hq
        injection hq
      have ht : t1 = t2 := by
        refine ih t2 hk2 ?_ ?_
        · rw [keysOf_cons] at hnd
          exact (List.nodup_cons.1 hnd).2
        · intro q
          by_cases hq : q = p1.1
          · subst hq
            rw [mapGet_none_of_not_mem_keys hnd1,
              mapGet_none_of_not_mem_keys (hk2 ▸ hnd1)]
          · have e1 : mapGet (p1 :: t1) q = mapGet t1 q :=
              mapGet_cons_ne p1.1 p1.2 t1 q (fun hh => hq hh.symm)
            have e2 : mapGet (p2 :: t2) q = mapGet t2 q :=
              mapGet_cons_ne p2.1 p2.2 t2 q
                (by rw [← hk1]; exact fun hh => hq hh.symm)
            rw [← e1, ← e2]
            exact hg q
      have hp : p1 = p2 := Prod.ext hk1 hv
      rw [hp, ht]

namespace CodebaseMermaidGenerator

theorem lastOpVal_go (q : String) :
    ∀ (ops : List (String × α)) (acc : Option α),
    ops.foldl (fun acc op => if op.1 == q then some op.2 else acc) acc =
    (match lastOpVal ops q with
     | some v => some v
     | none => acc) := by
  intro ops
  induction ops with
  | nil => intro acc; rfl
  | cons op rest ih =>
    intro acc
    rw [List.foldl_cons, ih]
    have hR : lastOpVal (op :: rest) q =
        (match lastOpVal rest q with
         | some v => some v
         | none => if op.1 == q then some op.2 else none) := by
      unfold lastOpVal
      rw [List.foldl_cons]
      exact ih _
    rw [hR]
    cases hrest : lastOpVal rest q with
    | some v => rfl
    | none =>
      by_cases hop : op.1 == q
      · rw [if_pos hop, if_pos hop]
      · rw [if_neg hop, if_neg hop]

theorem mapGet_applyOps :
    ∀ (ops : List (String × α)) (m : List (String × α)) (q : String),
    mapGet (applyOps m ops) q =
    (match lastOpVal ops q with
     | some v => some v
     | none => mapGet m q) := by
  intro ops
  induction ops with
  | nil => intro m q; rfl
  | cons op rest ih =>
    intro m q
    unfold applyOps
    rw [List.foldl_cons]
    have hL := ih (mapSet m op.1 op.2) q
    unfold applyOps at hL
    rw [hL]
    have hR : lastOpVal (op :: rest) q =
        (match lastOpVal rest q with
         | some v => some v
         | none => if op.1 == q then some op.2 else none) := by
      unfold lastOpVal
      rw [List.foldl_cons]
      exact lastOpVal_go q rest _
    rw [hR]
    cases hrest : lastOpVal rest q with
    | some v => rfl
    | none =>
      by_cases hop : op.1 == q
      · have hkq : op.1 = q := by simpa using hop
        rw [if_pos hop, hkq, mapGet_mapSet_self]
      · have hne : q ≠ op.1 := Ne.symm (by simpa using hop)
        rw [if_neg hop, mapGet_mapSet_ne m op.1 op.2 q hne]

theorem mapHas_applyOps_mono :
    ∀ (ops : List (String × α)) (m : List (String × α)) (x : String),
    mapHas m x = true → mapHas (applyOps m ops) x = true := by
  intro ops
  induction ops with
  | nil => intro m x h; exact h
  | cons op rest ih =>
    intro m x h
    unfold applyOps
    rw [List.foldl_cons]
    exact ih (mapSet m op.1 op.2) x (mapHas_mapSet_mono m op.1 op.2 x h)

theorem mapHas_applyOps_of_op :
    ∀ (ops : List (String × α)) (m : List (String × α)) (op : String × α),
    op ∈ ops → mapHas (applyOps m ops) op.1 = true := by
  intro ops
  induction ops with
  | nil => intro m op h; cases h
  | cons op0 rest ih =>
    intro m op h
    unfold applyOps
    rw [List.foldl_cons]
    rcases List.mem_cons.1 h with rfl | h2
    · exact mapHas_applyOps_mono rest _ op.1
        (mapHas_of_mapSet_self m op.1 op.2)
    · exact ih _ op h2

theorem keysOf_applyOps_of_allHas :
    ∀ (ops : List (String × α)) (m : List (String × α)),
    (∀ op ∈ ops, mapHas m op.1 = true) →
    keysOf (applyOps m ops) = keysOf m := by
  intro ops
  induction ops with
  | nil => intro m _; rfl
  | cons op rest ih =>
    intro m h
    unfold applyOps
    rw [List.foldl_cons]
    have h0 := h op (List.mem_cons_self op rest)
    have hrest : ∀ op2 ∈ rest, mapHas (mapSet m op.1 op.2) op2.1 = true :=
      fun op2 h2 => mapHas_mapSet_mono m op.1 op.2 op2.1
        (h op2 (List.mem_cons_of_mem op h2))
    have := ih (mapSet m op.1 op.2) hrest
    unfold applyOps at this
    rw [this, keysOf_mapSet_of_has m op.1 op.2 h0]

theorem nodupKeys_applyOps :
    ∀ (ops : List (String × α)) (m : List (String × α)),
    (keysOf m).Nodup → (keysOf (applyOps m ops)).Nodup := by
  intro ops
  induction ops with
  | nil => intro m h; exact h
  | cons op rest ih =>
    intro m h
    unfold applyOps
    rw [List.foldl_cons]
    exact ih (mapSet m op.1 op.2) (nodupKeys_mapSet m op.1 op.2 h)

theorem applyOps_idem (ops : List (String × α)) (m : List (String × α))
    (hnd : (keysOf m).Nodup) :
    applyOps (applyOps m ops) ops = applyOps m ops := by
  refine mapGet_ext _ _ ?_ ?_ ?_
  · exact keysOf_applyOps_of_allHas ops (applyOps m ops)
      (fun op h => mapHas_applyOps_of_op ops m op h)
  · exact nodupKeys_applyOps ops _ (nodupKeys_applyOps ops m hnd)
  · intro q
    rw [mapGet_applyOps ops (applyOps m ops) q]
    cases hlast : lastOpVal ops q with
    | some v => rw [mapGet_applyOps ops m q, hlast]
    | none => rfl

end CodebaseMermaidGenerator

theorem ne_of_beginsWith {c : Char} {a b : String}
    (ha : beginsWith c a = true) (hb : beginsWith c b = false) : a ≠ b := by
  intro h
  subst h
  rw [ha] at hb
  cases hb

namespace CodebaseMermaidGenerator

theorem mapGet_applyOps_stable :
    ∀ (ops : List (String × α)) (m : List (String × α)) (q : String),
    (∀ op ∈ ops, op.1 ≠ q) → mapGet (applyOps m ops) q = mapGet m q := by
  intro ops
  induction ops with
  | nil => intro m q _; rfl
  | cons op rest ih =>
    intro m q h
    unfold applyOps
    rw [List.foldl_cons]
    have hstep := ih (mapSet m op.1 op.2) q
      (fun op2 h2 => h op2 (List.mem_cons_of_mem op h2))
    unfold applyOps at hstep
    rw [hstep]
    exact mapGet_mapSet_ne m op.1 op.2 q
      (Ne.symm (h op (List.mem_cons_self op rest)))

theorem regNamesOps_congr (b1 b2 : List (String × String)) :
    ∀ (ms : List (String × CodebaseModule)),
    (∀ p ∈ ms, mapGet b1 p.2.relativePath = mapGet b2 p.2.relativePath) →
    regNamesOps ms b1 = regNamesOps ms b2 := by
  intro ms
  induction ms with
  | nil => intro _; rfl
  | cons p ps ih =>
    intro h
    have hp := h p (List.mem_cons_self p ps)
    unfold regNamesOps
    rw [List.filterMap_cons, List.filterMap_cons]
    rw [hp]
    have ht := ih (fun p2 h2 => h p2 (List.mem_cons_of_mem p h2))
    unfold regNamesOps at ht
    rw [ht]

theorem regNodeOps_congr (b1 b2 : List (String × String)) :
    ∀ (ms : List (String × CodebaseModule)),
    (∀ p ∈ ms, mapGet b1 p.2.relativePath = mapGet b2 p.2.relativePath) →
    regNodeOps ms b1 = regNodeOps ms b2 := by
  intro ms
  induction ms with
  | nil => intro _; rfl
  | cons p ps ih =>
    intro h
    have hp := h p (List.mem_cons_self p ps)
    unfold regNodeOps
    rw [List.filterMap_cons, List.filterMap_cons]
    rw [hp]
    have ht := ih (fun p2 h2 => h p2 (List.mem_cons_of_mem p h2))
    unfold regNodeOps at ht
    rw [ht]

theorem register_decompose :
    ∀ (ms : List (String × CodebaseModule)) (st : GenState),
    (∀ p ∈ ms, beginsWith '/' p.1 = true) →
    (∀ p ∈ ms, beginsWith '/' p.2.relativePath = false) →
    registerAbsolutePaths ms st =
      { namesHashMap := applyOps st.namesHashMap (regNamesOps ms st.namesHashMap),
        nodeIdToModule := applyOps st.nodeIdToModule (regNodeOps ms st.namesHashMap) } := by
  intro ms
  induction ms with
  | nil => intro st _ _; rfl
  | cons p ps ih =>
    intro st habs hrel
    unfold registerAbsolutePaths
    rw [List.foldl_cons]
    cases hg : mapGet st.namesHashMap p.2.relativePath with
    | none =>
      simp only [hg]
      have hrec := ih st (fun p2 h2 => habs p2 (List.mem_cons_of_mem p h2))
        (fun p2 h2 => hrel p2 (List.mem_cons_of_mem p h2))
      unfold registerAbsolutePaths at hrec
      rw [hrec]
      have hn : regNamesOps (p :: ps) st.namesHashMap =
          regNamesOps ps st.namesHashMap := by
        unfold regNamesOps
        rw [List.filterMap_cons]
        simp [hg]
      have hn2 : regNodeOps (p :: ps) st.namesHashMap =
          regNodeOps ps st.namesHashMap := by
        unfold regNodeOps
        rw [List.filterMap_cons]
        simp [hg]
      rw [hn, hn2]
    | some h0 =>
      simp only [hg]
      have hrec := ih
        ⟨mapSet st.namesHashMap p.1 h0, mapSet st.nodeIdToModule h0 p.2⟩
        (fun p2 h2 => habs p2 (List.mem_cons_of_mem p h2))
        (fun p2 h2 => hrel p2 (List.mem_cons_of_mem p h2))
      unfold registerAbsolutePaths at hrec
      rw [hrec]
      have hreads : ∀ p2 ∈ ps,
          mapGet (mapSet st.namesHashMap p.1 h0) p2.2.relativePath =
          mapGet st.namesHashMap p2.2.relativePath := by
        intro p2 h2
        exact mapGet_mapSet_ne _ p.1 h0 _
          (Ne.symm (ne_of_beginsWith (habs p (List.mem_cons_self p ps))
            (hrel p2 (List.mem_cons_of_mem p h2))))
      have hn := regNamesOps_congr (mapSet st.namesHashMap p.1 h0)
        st.namesHashMap ps hreads
      have hn2 := regNodeOps_congr (mapSet st.namesHashMap p.1 h0)
        st.namesHashMap ps hreads
      show (⟨applyOps (mapSet st.namesHashMap p.1 h0)
              (regNamesOps ps (mapSet st.namesHashMap p.1 h0)),
            applyOps (mapSet st.nodeIdToModule h0 p.2)
              (regNodeOps ps (mapSet st.namesHashMap p.1 h0))⟩ : GenState) = _
      rw [hn, hn2]
      have hcons1 : regNamesOps (p :: ps) st.namesHashMap =
          (p.1, h0) :: regNamesOps ps st.namesHashMap := by
        unfold regNamesOps
        rw [List.filterMap_cons]
        simp [hg]
      have hcons2 : regNodeOps (p :: ps) st.namesHashMap =
          (h0, p.2) :: regNodeOps ps st.namesHashMap := by
        unfold regNodeOps
        rw [List.filterMap_cons]
        simp [hg]
      rw [hcons1, hcons2]
      rfl

end CodebaseMermaidGenerator

namespace CodebaseMermaidGenerator

theorem mapHas_register_mono :
    ∀ (ms : List (String × CodebaseModule)) (st : GenState) (x : String),
    mapHas st.namesHashMap x = true →
    mapHas (registerAbsolutePaths ms st).namesHashMap x = true := by
  intro ms
  induction ms with
  | nil => intro st x h; exact h
  | cons p ps ih =>
    intro st x h
    unfold registerAbsolutePaths
    rw [List.foldl_cons]
    cases hg : mapGet st.namesHashMap p.2.relativePath with
    | none =>
      simp only [hg]
      exact ih st x h
    | some h0 =>
      simp only [hg]
      exact ih ⟨mapSet st.namesHashMap p.1 h0, mapSet st.nodeIdToModule h0 p.2⟩ x
        (mapHas_mapSet_mono _ p.1 h0 x h)

theorem assign_foldl_mono (minify : Bool) (q : String) :
    ∀ (ps : List String) (st : List (String × String) × Nat),
    mapHas st.1 q = true →
    mapHas ((ps.foldl (fun st relativePath =>
      if mapHas st.1 relativePath then st
      else if minify then
        (mapSet st.1 relativePath ("N" ++ natToBase36 st.2), st.2 + 1)
      else
        (mapSet st.1 relativePath (hashToReadableNodeName relativePath), st.2))
      st).1) q = true := by
  intro ps
  induction ps with
  | nil => intro st h; exact h
  | cons a as ih =>
    intro st h
    rw [List.foldl_cons]
    apply ih
    beta_reduce
    by_cases hhas : mapHas st.1 a
    · rw [if_pos hhas]
      exact h
    · rw [if_neg hhas]
      by_cases hmin : minify
      · rw [if_pos hmin]
        exact mapHas_mapSet_mono _ _ _ _ h
      · rw [if_neg hmin]
        exact mapHas_mapSet_mono _ _ _ _ h

theorem assign_foldl_has (minify : Bool) (q : String) :
    ∀ (ps : List String) (st : List (String × String) × Nat), q ∈ ps →
    mapHas ((ps.foldl (fun st relativePath =>
      if mapHas st.1 relativePath then st
      else if minify then
        (mapSet st.1 relativePath ("N" ++ natToBase36 st.2), st.2 + 1)
      else
        (mapSet st.1 relativePath (hashToReadableNodeName relativePath), st.2))
      st).1) q = true := by
  intro ps
  induction ps with
  | nil => intro st h; cases h
  | cons a as ih =>
    intro st h
    rw [List.foldl_cons]
    rcases List.mem_cons.1 h with rfl | h2
    · apply assign_foldl_mono
      beta_reduce
      by_cases hhas : mapHas st.1 q
      · rw [if_pos hhas]
        exact hhas
      · rw [if_neg hhas]
        by_cases hmin : minify
        · rw [if_pos hmin]
          exact mapHas_of_mapSet_self _ _ _
        · rw [if_neg hmin]
          exact mapHas_of_mapSet_self _ _ _
    · exact ih _ h2

theorem assignIds_has (minify : Bool) (paths : List String)
    (names : List (String × String)) (q : String) (hq : q ∈ paths) :
    mapHas (assignIds minify paths names) q = true := by
  unfold assignIds
  exact assign_foldl_has minify q paths (names, 0) hq

theorem assign_foldl_id (minify : Bool) :
    ∀ (ps : List String) (st : List (String × String) × Nat),
    (∀ q ∈ ps, mapHas st.1 q = true) →
    (ps.foldl (fun st relativePath =>
      if mapHas st.1 relativePath then st
      else if minify then
        (mapSet st.1 relativePath ("N" ++ natToBase36 st.2), st.2 + 1)
      else
        (mapSet st.1 relativePath (hashToReadableNodeName relativePath), st.2))
      st) = st := by
  intro ps
  induction ps with
  | nil => intro st _; rfl
  | cons a as ih =>
    intro st h
    rw [List.foldl_cons]
    have hstep : (if mapHas st.1 a then st
        else if minify then (mapSet st.1 a ("N" ++ natToBase36 st.2), st.2 + 1)
        else (mapSet st.1 a (hashToReadableNodeName a), st.2)) = st := by
      rw [if_pos (h a (List.mem_cons_self a as))]
    rw [hstep]
    exact ih st (fun q hq => h q (List.mem_cons_of_mem a hq))

theorem assignIds_id (minify : Bool) (paths : List String)
    (names : List (String × String))
    (h : ∀ q ∈ paths, mapHas names q = true) :
    assignIds minify paths names = names := by
  unfold assignIds
  rw [assign_foldl_id minify paths (names, 0) h]

theorem assign_foldl_nodup (minify : Bool) :
    ∀ (ps : List String) (st : List (String × String) × Nat),
    (keysOf st.1).Nodup →
    (keysOf ((ps.foldl (fun st relativePath =>
      if mapHas st.1 relativePath then st
      else if minify then
        (mapSet st.1 relativePath ("N" ++ natToBase36 st.2), st.2 + 1)
      else
        (mapSet st.1 relativePath (hashToReadableNodeName relativePath), st.2))
      st).1)).Nodup := by
  intro ps
  induction ps with
  | nil => intro st h; exact h
  | cons a as ih =>
    intro st h
    rw [List.foldl_cons]
    apply ih
    beta_reduce
    by_cases hhas : mapHas st.1 a
    · rw [if_pos hhas]
      exact h
    · rw [if_neg hhas]
      by_cases hmin : minify
      · rw [if_pos hmin]
        exact nodupKeys_mapSet _ _ _ h
      · rw [if_neg hmin]
        exact nodupKeys_mapSet _ _ _ h

theorem nodupKeys_assignIds (minify : Bool) (paths : List String)
    (names : List (String × String)) (h : (keysOf names).Nodup) :
    (keysOf (assignIds minify paths names)).Nodup := by
  unfold assignIds
  exact assign_foldl_nodup minify paths (names, 0) h

end CodebaseMermaidGenerator

namespace CodebaseMermaidGenerator

theorem register_idem (modules : List (String × CodebaseModule)) (st : GenState)
    (habs : ∀ p ∈ modules, beginsWith '/' p.1 = true)
    (hrel : ∀ p ∈ modules, beginsWith '/' p.2.relativePath = false)
    (hnd : (keysOf st.namesHashMap).Nodup)
    (hndn : (keysOf st.nodeIdToModule).Nodup) :
    registerAbsolutePaths modules (registerAbsolutePaths modules st) =
      registerAbsolutePaths modules st := by
  have h1 := register_decompose modules st habs hrel
  have hreads : ∀ p ∈ modules,
      mapGet (registerAbsolutePaths modules st).namesHashMap p.2.relativePath =
      mapGet st.namesHashMap p.2.relativePath := by
    intro p hp
    rw [h1]
    refine mapGet_applyOps_stable _ _ _ ?_
    intro op hop
    unfold regNamesOps at hop
    rcases List.mem_filterMap.1 hop with ⟨p2, hp2, hf⟩
    cases hgp : mapGet st.namesHashMap p2.2.relativePath with
    | none => rw [hgp] at hf; cases hf
    | some h0 =>
      rw [hgp] at hf
      simp only [Option.map] at hf
      injection hf with hf2
      rw [← hf2]
      exact ne_of_beginsWith (habs p2 hp2) (hrel p hp)
  have h2 := register_decompose modules (registerAbsolutePaths modules st)
    habs hrel
  rw [h2, regNamesOps_congr _ _ modules hreads, regNodeOps_congr _ _ modules hreads,
    h1]
  show (⟨applyOps (applyOps st.namesHashMap (regNamesOps modules st.namesHashMap))
          (regNamesOps modules st.namesHashMap),
        applyOps (applyOps st.nodeIdToModule (regNodeOps modules st.namesHashMap))
          (regNodeOps modules st.namesHashMap)⟩ : GenState) = _
  rw [applyOps_idem _ _ hnd, applyOps_idem _ _ hndn]

theorem hashModuleNames_fixpoint (modules : List (String × CodebaseModule))
    (minify : Bool)
    (habs : ∀ p ∈ modules, beginsWith '/' p.1 = true)
    (hrel : ∀ p ∈ modules, beginsWith '/' p.2.relativePath = false) :
    hashModuleNames modules minify (hashModuleNames modules minify GenState.init) =
      hashModuleNames modules minify GenState.init := by
  have hasAll : ∀ q ∈ allPathsOf modules,
      mapHas (hashModuleNames modules minify GenState.init).namesHashMap q = true := by
    intro q hq
    exact mapHas_register_mono modules
      ⟨assignIds minify (allPathsOf modules) [], []⟩ q
      (assignIds_has minify (allPathsOf modules) [] q hq)
  have hassign : assignIds minify (allPathsOf modules)
      (hashModuleNames modules minify GenState.init).namesHashMap =
      (hashModuleNames modules minify GenState.init).namesHashMap :=
    assignIds_id minify (allPathsOf modules) _ hasAll
  have hstep : hashModuleNames modules minify
      (hashModuleNames modules minify GenState.init) =
      registerAbsolutePaths modules (hashModuleNames modules minify GenState.init) := by
    show registerAbsolutePaths modules
        { hashModuleNames modules minify GenState.init with
          namesHashMap := assignIds minify (allPathsOf modules)
            (hashModuleNames modules minify GenState.init).namesHashMap } = _
    rw [hassign]
  rw [hstep]
  have hbase : hashModuleNames modules minify GenState.init =
      registerAbsolutePaths modules
        ⟨assignIds minify (allPathsOf modules) [], []⟩ := rfl
  rw [hbase]
  exact register_idem modules ⟨assignIds minify (allPathsOf modules) [], []⟩
    habs hrel
    (nodupKeys_assignIds minify (allPathsOf modules) [] (by simp [keysOf]))
    (by simp [keysOf])

end CodebaseMermaidGenerator

/-- C7 (render determinism, round-trip): rendering the same
finalized module map twice with no mutation in between yields
byte-identical diagram text.  The second call runs on the generator
state left by the first (the TS generator keeps `namesHashMap` and
`nodeIdToModule` as instance fields); because a second `hashModuleNames`
pass is a no-op on that state, the emitted text is the same string; and
`CodebaseGraphBuilder.generateMermaid` always starts from a fresh
generator, so its output is a function of the module map alone. -/
theorem c7_render_roundtrip (modules : List (String × CodebaseModule))
    (minify : Bool)
    (habs : ∀ p ∈ modules, beginsWith '/' p.1 = true)
    (hrel : ∀ p ∈ modules, beginsWith '/' p.2.relativePath = false) :
    (CodebaseMermaidGenerator.generate modules minify
      (CodebaseMermaidGenerator.generate modules minify GenState.init).2).1 =
    (CodebaseMermaidGenerator.generate modules minify GenState.init).1 ∧
    (CodebaseMermaidGenerator.generate modules true GenState.init).1 =
      CodebaseGraphBuilder.generateMermaid modules := by
  refine ⟨?_, rfl⟩
  have hfix := CodebaseMermaidGenerator.hashModuleNames_fixpoint modules minify
    habs hrel
  show (CodebaseMermaidGenerator.generate modules minify
      (CodebaseMermaidGenerator.hashModuleNames modules minify GenState.init)).1 = _
  unfold CodebaseMermaidGenerator.generate
  rw [hfix]

/-- C7 witness: rendering the demo map twice through the same generator
(the second call starting from the first call's final state) produces
the same diagram text. -/
theorem c7_witness :
    (CodebaseMermaidGenerator.generate demoMods true
      (CodebaseMermaidGenerator.generate demoMods true GenState.init).2).1 =
    (CodebaseMermaidGenerator.generate demoMods true GenState.init).1 :=
  (c7_render_roundtrip demoMods true (by decide) (by decide)).1

end CodeViz
